import Mathlib

/-!
Verification development for the `vsolver` dependency-resolution engine
(`solver.go`).  The solver is embedded shallowly: the mutable solver is a
`SolverState` record and each Go method becomes a state-passing function.
Go panics are rendered as `Option` failure (`none`); fallible calls into the
source manager return `Except`.  The collaborating pieces that live outside
`solver.go` (constraint primitives, the selection set, the unselected heap,
the version queue, the source manager) are modelled from the specification,
each marked with a `Modelled from the spec` doc comment.  Logging is dropped
(out of scope per the spec), and the process-global random revision of the
nil placeholder atom is rendered as a fixed fresh string.
-/

set_option linter.unusedVariables false

abbrev ProjectName := String
abbrev Version := String

/-- Modelled from the spec: opaque constraint values (§3) with the predicate
algebra `matches` / `matchesAny`.  `anyC` is the universal constraint; `among
vs` admits exactly the versions listed in `vs`. -/
inductive Constraint where
  | anyC : Constraint
  | among : List Version → Constraint
deriving DecidableEq, Repr

/-- Modelled from the spec: `matches(v)` — does a concrete version satisfy the
constraint (§3). -/
def Constraint.cmatches : Constraint → Version → Bool
  | .anyC, _ => true
  | .among vs, v => vs.contains v

/-- Modelled from the spec: `matchesAny(other)` — do the two constraints have a
non-empty intersection over the universe of versions (§3). -/
def Constraint.matchesAny : Constraint → Constraint → Bool
  | .anyC, .anyC => true
  | .anyC, .among ws => !ws.isEmpty
  | .among vs, .anyC => !vs.isEmpty
  | .among vs, .among ws => vs.any (fun v => ws.contains v)

/-- Modelled from the spec: intersection of two constraints, used to fold a
compound constraint (§3, §4.1). -/
def Constraint.inter : Constraint → Constraint → Constraint
  | .anyC, c => c
  | .among vs, .anyC => .among vs
  | .among vs, .among ws => .among (vs.filter (fun v => ws.contains v))

structure ProjectAtom where
  name : ProjectName
  version : Version
deriving DecidableEq, Repr

structure ProjectDep where
  name : ProjectName
  constraint : Constraint
deriving DecidableEq, Repr

structure Dependency where
  depender : ProjectAtom
  dep : ProjectDep
deriving DecidableEq, Repr

structure LockedProject where
  name : ProjectName
  version : Version
deriving DecidableEq, Repr

/-- Modelled from the spec: `ProjectInfo` carries the atom, its declared deps,
its declared dev deps, and (for the root) an optional prior lock (§3, §6). -/
structure ProjectInfo where
  pa : ProjectAtom
  deps : List ProjectDep
  devdeps : List ProjectDep
  lock : Option (List LockedProject)
deriving DecidableEq, Repr

/-- The `nilpa` placeholder atom of solver.go lines 12-17: a nameless atom
whose version is a random revision drawn once per process.  It is rendered
here as a fixed fresh string, matching its role as a process-wide constant. -/
def nilpa : ProjectAtom := ⟨"", "k3q9w7zr1xm4"⟩

/-- The zero-valued `ProjectAtom`, against which `satisfiable` panics. -/
def emptyProjectAtom : ProjectAtom := ⟨"", ""⟩

/-- Association-list lookup keyed by project name (model of a Go map read). -/
def alookup {α : Type} : List (ProjectName × α) → ProjectName → Option α
  | [], _ => none
  | (k, v) :: rest, n => if k = n then some v else alookup rest n

/-- Association-list write keyed by project name (model of a Go map write:
update in place, or append a fresh key; keys are never deleted). -/
def aset {α : Type} : List (ProjectName × α) → ProjectName → α → List (ProjectName × α)
  | [], n, v => [(n, v)]
  | (k, w) :: rest, n, v => if k = n then (n, v) :: rest else (k, w) :: aset rest n v

/-- The selection set (§3, §4.1): committed atoms in commit order, and the
per-name inbound dependency edges in creation order. -/
structure Selection where
  projects : List ProjectAtom
  deps : List (ProjectName × List Dependency)
deriving DecidableEq, Repr

/-- Modelled from the spec: `getDependenciesOn` returns the inbound edges on a
name in creation order, empty when none were recorded (§4.1). -/
def getDependenciesOn (sel : Selection) (n : ProjectName) : List Dependency :=
  (alookup sel.deps n).getD []

/-- Modelled from the spec: `getConstraint` folds the intersection of the
constraints carried by every inbound edge, starting from `any` (§4.1). -/
def getConstraint (sel : Selection) (n : ProjectName) : Constraint :=
  (getDependenciesOn sel n).foldl (fun c d => c.inter d.dep.constraint) Constraint.anyC

/-- Modelled from the spec: `selected` scans the committed atoms for a name
(§4.1). -/
def selectedIn (sel : Selection) (n : ProjectName) : Option ProjectAtom :=
  sel.projects.find? (fun pa => pa.name = n)

/-- Modelled from the spec: the source manager capability set (§6), rendered
as pure functions so identical requests get identical answers (§5). -/
structure SourceManager where
  repoExists : ProjectName → Except String Bool
  vendorCodeExists : ProjectName → Except String Bool
  listVersions : ProjectName → Except String (List Version)
  getProjectInfo : ProjectAtom → Except String ProjectInfo

/-- The structured solver failures of §7, plus a constructor for raw source
manager errors that the Go code passes through as plain `error` values. -/
inductive SolveError where
  | cannotResolve : String → SolveError
  | versionNotAllowed : ProjectAtom → List Dependency → Constraint → SolveError
  | disjointConstraint : Dependency → List Dependency → List Dependency → Constraint → SolveError
  | constraintNotAllowed : Dependency → Version → SolveError
  | noVersion : ProjectName → List SolveError → SolveError
  | smErr : String → SolveError
deriving Repr

/-- Modelled from the spec: the per-project version queue (§4.3). `pi` is the
remaining candidate list (lock head first when present), `fails` the failure
log, `failed` the driver's known-bad mark. -/
structure VersionQueue where
  ref : ProjectName
  pi : List Version
  fails : List SolveError
  failed : Bool
  hasLock : Bool
  allLoaded : Bool
deriving Repr

/-- Modelled from the spec: `current()` is the head of the remaining
candidates (§4.3). -/
def VersionQueue.current (q : VersionQueue) : Option Version :=
  q.pi.head?

/-- Modelled from the spec: `isExhausted()` — no candidates remain (§4.3). -/
def VersionQueue.isExhausted (q : VersionQueue) : Bool :=
  q.pi.isEmpty

/-- Modelled from the spec: queue construction (§4.3, §4.5.2).  A usable lock
atom becomes the lock head and the upstream tail stays unloaded; otherwise the
whole upstream enumeration is drawn from the source manager. -/
def newVersionQueue (sm : SourceManager) (ref : ProjectName) (lockv : ProjectAtom) :
    Except String VersionQueue :=
  if lockv ≠ nilpa then
    .ok ⟨ref, [lockv.version], [], false, true, false⟩
  else
    match sm.listVersions ref with
    | .error e => .error e
    | .ok vs => .ok ⟨ref, vs, [], false, false, true⟩

/-- Modelled from the spec: `advance(reason)` records the reason into `fails`,
drops the current head, and draws the upstream tail when the head ran out;
the error slot is non-empty exactly when that draw failed (§4.3).  The queue
is returned alongside because the Go queue mutates in place even when the
draw fails. -/
def VersionQueue.advance (sm : SourceManager) (q : VersionQueue)
    (reason : Option SolveError) : VersionQueue × Option String :=
  let q1 := match reason with
    | some e => { q with fails := q.fails ++ [e] }
    | none => q
  let q2 := { q1 with pi := q1.pi.tail }
  if !q2.allLoaded && q2.pi.isEmpty then
    match sm.listVersions q2.ref with
    | .error e => (q2, some e)
    | .ok vs => ({ q2 with pi := vs, allLoaded := true }, none)
  else (q2, none)

/-- The mutable solver of solver.go lines 34-44. The source manager is passed
explicitly to each operation and the logger is dropped. -/
structure SolverState where
  latest : List ProjectName
  sel : Selection
  unsel : List ProjectName
  versions : List VersionQueue
  rp : ProjectInfo
  rlm : List (ProjectName × LockedProject)
  attempts : Nat
deriving Repr

/-- List-versions lookup with errors ignored, matching
`ivl, _ := s.sm.ListVersions(iname)` in the comparator (solver.go line 630). -/
def listVersionsD (sm : SourceManager) (n : ProjectName) : List Version :=
  match sm.listVersions n with
  | .ok vs => vs
  | .error _ => []

/-- Direct translation of `unselectedComparator` (solver.go lines 592-648),
taking the two names rather than slice indices. -/
def unselectedComparator (sm : SourceManager) (s : SolverState)
    (iname jname : ProjectName) : Bool :=
  if iname = jname then false
  else
    let rname := s.rp.pa.name
    if iname = rname then true
    else if jname = rname then false
    else
      let ilock := (alookup s.rlm iname).isSome
      let jlock := (alookup s.rlm jname).isSome
      if ilock && !jlock then true
      else if !ilock && jlock then false
      else if ilock && jlock then decide (iname < jname)
      else
        let iv := (listVersionsD sm iname).length
        let jv := (listVersionsD sm jname).length
        if iv == 0 && jv != 0 then true
        else if iv != 0 && jv == 0 then false
        else if iv != jv then decide (iv < jv)
        else decide (iname < jname)

/-- Modelled from the spec: the unselected frontier is a min-heap of names
under the §4.2 comparator; it is modelled as a list kept sorted by the
comparator with the minimum at the head, so `heap.Push` is a sorted insert. -/
def heapInsert (cmp : ProjectName → ProjectName → Bool) (x : ProjectName) :
    List ProjectName → List ProjectName
  | [] => [x]
  | y :: ys => if cmp x y then x :: y :: ys else y :: heapInsert cmp x ys

/-- The comparator closed over the current solver state, as installed by
`Solve` (solver.go line 70). -/
def cmpOf (sm : SourceManager) (s : SolverState) : ProjectName → ProjectName → Bool :=
  unselectedComparator sm s

/-- Translation of `nextUnselected` (solver.go lines 584-590): peek at the
heap minimum. -/
def nextUnselected (s : SolverState) : Option ProjectName :=
  s.unsel.head?

/-- Helper for `fail`: mark the first (oldest) queue carrying the name. -/
def markFirst : List VersionQueue → ProjectName → List VersionQueue
  | [], _ => []
  | q :: qs, n => if q.ref = n then { q with failed := true } :: qs else q :: markFirst qs n

/-- Translation of `fail` (solver.go lines 650-665): skip the root, otherwise
mark the oldest queue whose ref is the name. -/
def solverFail (s : SolverState) (name : ProjectName) : SolverState :=
  if s.rp.pa.name = name then s
  else { s with versions := markFirst s.versions name }

/-- Translation of `getDependenciesOf` (solver.go lines 457-480): the declared
deps of an atom, with the dev deps appended for the root. -/
def getDependenciesOf (sm : SourceManager) (rp : ProjectInfo) (pa : ProjectAtom) :
    Except String (List ProjectDep) :=
  match sm.getProjectInfo pa with
  | .error e => .error e
  | .ok info =>
    .ok (if rp.pa.name = pa.name then info.deps ++ info.devdeps else info.deps)

/-- The declared-deps list of an atom as a total function (empty on fetch
failure); used only to state invariants, never by the solver itself. -/
def declaredD (sm : SourceManager) (rp : ProjectInfo) (pa : ProjectAtom) : List ProjectDep :=
  match getDependenciesOf sm rp pa with
  | .ok ds => ds
  | .error _ => []

/-- Translation of `getLockVersionIfValid` (solver.go lines 264-313),
including the branch on upstream existence exactly as written at lines
267-281. -/
def getLockVersionIfValid (sm : SourceManager) (s : SolverState) (ref : ProjectName) :
    ProjectAtom :=
  if s.latest.contains ref &&
      !(match sm.repoExists ref with | .ok b => b | .error _ => false) then
    nilpa
  else
    match alookup s.rlm ref with
    | none => nilpa
    | some lp =>
      let c := getConstraint s.sel ref
      if !(c.cmatches lp.version) then nilpa
      else ⟨lp.name, lp.version⟩

/-- One iteration of the declared-deps loop inside `selectVersion`
(solver.go lines 679-688). -/
def selDepStep (sm : SourceManager) (pa : ProjectAtom) (s : SolverState)
    (dep : ProjectDep) : SolverState :=
  let sibs := getDependenciesOn s.sel dep.name ++ [⟨pa, dep⟩]
  let s' := { s with sel := { s.sel with deps := aset s.sel.deps dep.name sibs } }
  if sibs.length = 1 then { s' with unsel := heapInsert (cmpOf sm s') dep.name s'.unsel }
  else s'

/-- Translation of `selectVersion` (solver.go lines 667-689).  `none` is the
Go panic on a failing declared-deps fetch. -/
def selectVersion (sm : SourceManager) (s : SolverState) (pa : ProjectAtom) :
    Option SolverState :=
  let s1 := { s with unsel := s.unsel.erase pa.name,
                     sel := { s.sel with projects := s.sel.projects ++ [pa] } }
  match getDependenciesOf sm s1.rp pa with
  | .error _ => none
  | .ok ds => some (ds.foldl (selDepStep sm pa) s1)

/-- One iteration of the declared-deps loop inside `unselectLast`
(solver.go lines 704-720).  `none` is the Go slice-bounds panic when a dep has
no recorded edge left to drop. -/
def unselDepStep (s : SolverState) (dep : ProjectDep) : Option SolverState :=
  match getDependenciesOn s.sel dep.name with
  | [] => none
  | sibs0 =>
    let sibs := sibs0.dropLast
    let s' := { s with sel := { s.sel with deps := aset s.sel.deps dep.name sibs } }
    if sibs.isEmpty then some { s' with unsel := s'.unsel.erase dep.name }
    else some s'

/-- Translation of `unselectLast` (solver.go lines 691-721). `none` covers the
Go panics (empty selection, failing declared-deps fetch, missing edge). -/
def unselectLast (sm : SourceManager) (s : SolverState) : Option SolverState :=
  match s.sel.projects.getLast? with
  | none => none
  | some pa =>
    let s1 := { s with sel := { s.sel with projects := s.sel.projects.dropLast } }
    let s2 := { s1 with unsel := heapInsert (cmpOf sm s1) pa.name s1.unsel }
    match getDependenciesOf sm s2.rp pa with
    | .error _ => none
    | .ok ds => ds.foldlM unselDepStep s2

/-- Translation of `satisfiable` (solver.go lines 318-451).  The result pairs
the state after any `fail` marks with the returned error (`none` on success);
the outer `none` is the Go panic on the empty atom. -/
def satisfiableDeps (sm : SourceManager) (pi : ProjectAtom) :
    SolverState → List ProjectDep → SolverState × Option SolveError
  | s, [] => (s, none)
  | s, dep :: rest =>
    let siblings := getDependenciesOn s.sel dep.name
    let constraint := getConstraint s.sel dep.name
    if !(constraint.matchesAny dep.constraint) then
      let acc := siblings.foldl
        (fun (acc : SolverState × List Dependency × List Dependency) sibling =>
          if !(sibling.dep.constraint.matchesAny dep.constraint) then
            (solverFail acc.1 sibling.depender.name, acc.2.1 ++ [sibling], acc.2.2)
          else (acc.1, acc.2.1, acc.2.2 ++ [sibling]))
        (s, [], [])
      (acc.1, some (.disjointConstraint ⟨pi, dep⟩ acc.2.1 acc.2.2 constraint))
    else
      match selectedIn s.sel dep.name with
      | some sel_pa =>
        if !(dep.constraint.cmatches sel_pa.version) then
          (solverFail s dep.name, some (.constraintNotAllowed ⟨pi, dep⟩ sel_pa.version))
        else satisfiableDeps sm pi s rest
      | none => satisfiableDeps sm pi s rest

def satisfiable (sm : SourceManager) (s : SolverState) (pi : ProjectAtom) :
    Option (SolverState × Option SolveError) :=
  if pi = emptyProjectAtom then none
  else
    let constraint := getConstraint s.sel pi.name
    if !(constraint.cmatches pi.version) then
      let deps := getDependenciesOn s.sel pi.name
      let acc := deps.foldl
        (fun (acc : SolverState × List Dependency) dep =>
          if !(dep.dep.constraint.cmatches pi.version) then
            (solverFail acc.1 dep.depender.name, acc.2 ++ [dep])
          else acc)
        (s, [])
      some (acc.1, some (.versionNotAllowed pi acc.2 constraint))
    else
      match getDependenciesOf sm s.rp pi with
      | .error e => some (s, some (.smErr e))
      | .ok deps => some (satisfiableDeps sm pi s deps)

/-- The walk of `findValidVersion` (solver.go lines 218-252) for a queue that
is not on the version stack (the `createVersionQueue` call site): `true` means
a satisfiable current version was found, `false` that the walk broke on an
advance error or on exhaustion.  The fuel argument only bounds the number of
iterations; `none` covers panics and exhausted fuel. -/
def fvvWalkD (sm : SourceManager) :
    Nat → SolverState → VersionQueue → Option (SolverState × VersionQueue × Bool)
  | 0, _, _ => none
  | fuel + 1, s, q =>
    match q.current with
    | none => none
    | some cur =>
      match satisfiable sm s ⟨q.ref, cur⟩ with
      | none => none
      | some (s', none) => some (s', q, true)
      | some (s', some err) =>
        match q.advance sm (some err) with
        | (q', some _) => some (s', q', false)
        | (q', none) =>
          if q'.isExhausted then some (s', q', false)
          else fvvWalkD sm fuel s' q'

/-- Translation of `findValidVersion` (solver.go lines 203-262) at the
`createVersionQueue` call site, where the queue is not yet on the version
stack.  On an unsuccessful walk it marks the depender of the first inbound
edge on the queue's ref as failed and returns the aggregate `noVersion` error
carrying the failure-log suffix recorded past the `faillen` snapshot. -/
def findValidVersion (sm : SourceManager) (fuel : Nat) (s : SolverState)
    (q : VersionQueue) : Option (SolverState × VersionQueue × Option SolveError) :=
  match q.current with
  | none => none
  | some _ =>
    let faillen := q.fails.length
    match fvvWalkD sm fuel s q with
    | none => none
    | some (s', q', true) => some (s', q', none)
    | some (s', q', false) =>
      match getDependenciesOn s'.sel q.ref with
      | [] => none
      | d :: _ =>
        some (solverFail s' d.depender.name, q',
              some (.noVersion q.ref (q'.fails.drop faillen)))

/-- Replace the top (youngest) queue of the version stack in place. -/
def setTop (s : SolverState) (q : VersionQueue) : SolverState :=
  { s with versions := s.versions.dropLast ++ [q] }

/-- The walk of `findValidVersion` at the `backtrack` call site, where the
queue being walked is the top of the version stack, so `fail` marks inside
`satisfiable` can hit the walked queue itself; the queue is re-read from the
stack after each `satisfiable` call to keep that aliasing exact. -/
def fvvWalkT (sm : SourceManager) : Nat → SolverState → Option (SolverState × Bool)
  | 0, _ => none
  | fuel + 1, s =>
    match s.versions.getLast? with
    | none => none
    | some q =>
      match q.current with
      | none => none
      | some cur =>
        match satisfiable sm s ⟨q.ref, cur⟩ with
        | none => none
        | some (s', none) => some (s', true)
        | some (s', some err) =>
          match s'.versions.getLast? with
          | none => none
          | some qcur =>
            match qcur.advance sm (some err) with
            | (q', some _) => some (setTop s' q', false)
            | (q', none) =>
              if q'.isExhausted then some (setTop s' q', false)
              else fvvWalkT sm fuel (setTop s' q')

/-- Translation of `findValidVersion` at the `backtrack` call site (queue on
top of the version stack). -/
def findValidVersionT (sm : SourceManager) (fuel : Nat) (s : SolverState) :
    Option (SolverState × Option SolveError) :=
  match s.versions.getLast? with
  | none => none
  | some q0 =>
    match q0.current with
    | none => none
    | some _ =>
      let faillen := q0.fails.length
      match fvvWalkT sm fuel s with
      | none => none
      | some (s', true) => some (s', none)
      | some (s', false) =>
        match s'.versions.getLast? with
        | none => none
        | some q' =>
          match getDependenciesOn s'.sel q0.ref with
          | [] => none
          | d :: _ =>
            some (solverFail s' d.depender.name,
                  some (.noVersion q0.ref (q'.fails.drop faillen)))

/-- Translation of `createVersionQueue` (solver.go lines 136-199).  The result
pairs the possibly fail-marked state with either the ready queue or the error
the driver backtracks on. -/
def createVersionQueue (sm : SourceManager) (fuel : Nat) (s : SolverState)
    (ref : ProjectName) : Option (SolverState × Except SolveError VersionQueue) :=
  if ref = s.rp.pa.name then
    match newVersionQueue sm ref nilpa with
    | .error e => some (s, .error (.smErr e))
    | .ok q => some (s, .ok q)
  else
    match sm.repoExists ref with
    | .error e => some (s, .error (.smErr e))
    | .ok rexists =>
      let vendorCheck : Option (Option SolveError) :=
        if rexists then some none
        else
          match sm.vendorCodeExists ref with
          | .error e => some (some (.smErr e))
          | .ok vexists =>
            if vexists then some none
            else some (some (.cannotResolve ref))
      match vendorCheck with
      | none => none
      | some (some e) => some (s, .error e)
      | some none =>
        let lockv := getLockVersionIfValid sm s ref
        match newVersionQueue sm ref lockv with
        | .error e => some (s, .error (.smErr e))
        | .ok q =>
          match findValidVersion sm fuel s q with
          | none => none
          | some (s', q', none) => some (s', .ok q')
          | some (s', q', some e) => some (s', .error e)

/-- The inner loop of `backtrack` (solver.go lines 499-521): pop and unselect
non-failed frames from the top of the stack. `.inl` is the in-loop
`return false` on an emptied stack; `.inr` stops at a failed top frame. -/
def btInner (sm : SourceManager) : Nat → SolverState → Option (SolverState ⊕ SolverState)
  | 0, _ => none
  | fuel + 1, s =>
    match s.versions.getLast? with
    | none => some (.inl s)
    | some q =>
      if q.failed then some (.inr s)
      else
        match unselectLast sm { s with versions := s.versions.dropLast } with
        | none => none
        | some s' => btInner sm fuel s'

/-- The outer loop of `backtrack` (solver.go lines 498-574): find the youngest
failed frame, retract its atom, advance its queue and retry; pop it and keep
going when that fails. -/
def btOuter (sm : SourceManager) : Nat → SolverState → Option (SolverState × Bool)
  | 0, _ => none
  | fuel + 1, s =>
    match btInner sm (fuel + 1) s with
    | none => none
    | some (.inl s') => some (s', false)
    | some (.inr s1) =>
      match s1.versions.getLast? with
      | none => none
      | some q =>
        match unselectLast sm s1 with
        | none => none
        | some s2 =>
          match q.advance sm none with
          | (_, some _) => btOuter sm fuel { s2 with versions := s2.versions.dropLast }
          | (q', none) =>
            if q'.isExhausted then
              btOuter sm fuel { s2 with versions := s2.versions.dropLast }
            else
              match findValidVersionT sm (fuel + 1) (setTop s2 q') with
              | none => none
              | some (s4, some _) =>
                btOuter sm fuel { s4 with versions := s4.versions.dropLast }
              | some (s4, none) =>
                match s4.versions.getLast? with
                | none => none
                | some qf =>
                  match qf.current with
                  | none => none
                  | some v =>
                    match selectVersion sm s4 ⟨qf.ref, v⟩ with
                    | none => none
                    | some s5 => some ({ s5 with attempts := s5.attempts + 1 }, true)

/-- Translation of `backtrack` (solver.go lines 484-582). -/
def backtrack (sm : SourceManager) (fuel : Nat) (s : SolverState) :
    Option (SolverState × Bool) :=
  if s.versions.isEmpty then some (s, false)
  else btOuter sm fuel s

/-- Translation of the main loop `solve` (solver.go lines 82-134), with fuel
bounding the number of iterations. -/
def solveLoop (sm : SourceManager) :
    Nat → SolverState → Option (SolverState × Except SolveError (List ProjectAtom))
  | 0, _ => none
  | fuel + 1, s =>
    match nextUnselected s with
    | none => some (s, .ok s.sel.projects)
    | some ref =>
      match createVersionQueue sm (fuel + 1) s ref with
      | none => none
      | some (s1, .error e) =>
        match backtrack sm (fuel + 1) s1 with
        | none => none
        | some (s2, true) => solveLoop sm fuel s2
        | some (s2, false) => some (s2, .error e)
      | some (s1, .ok q) =>
        match q.current with
        | none => none
        | some v =>
          match selectVersion sm s1 ⟨q.ref, v⟩ with
          | none => none
          | some s2 => solveLoop sm fuel { s2 with versions := s2.versions ++ [q] }

/-- Name-set insert used for the `latest` map (solver.go lines 60-62). -/
def insertName (l : List ProjectName) (n : ProjectName) : List ProjectName :=
  if l.contains n then l else l ++ [n]

/-- The prologue of `Solve` (solver.go lines 52-71): record the root, merge
the root lock into `rlm`, merge the upgrade list into `latest`, and reset only
the selection and the frontier. -/
def solvePrep (s : SolverState) (root : ProjectInfo) (toUpgrade : List ProjectName) :
    SolverState :=
  { s with
    rp := root,
    rlm := (match root.lock with
            | some lps => lps.foldl (fun m lp => aset m lp.name lp) s.rlm
            | none => s.rlm),
    latest := toUpgrade.foldl insertName s.latest,
    sel := ⟨[], []⟩,
    unsel := [] }

/-- The result record returned by `Solve` (solver.go lines 77-79). -/
structure ResultR where
  projects : List ProjectAtom
  solveFailure : Option SolveError

/-- Translation of `Solve` (solver.go lines 49-80): prologue, seed the root
via `selectVersion`, then run the loop.  The mutated solver is returned with
the result. -/
def Solve (sm : SourceManager) (fuel : Nat) (s : SolverState) (root : ProjectInfo)
    (toUpgrade : List ProjectName) : Option (SolverState × ResultR) :=
  let s0 := solvePrep s root toUpgrade
  match selectVersion sm s0 s0.rp.pa with
  | none => none
  | some s1 =>
    match solveLoop sm fuel s1 with
    | none => none
    | some (s2, .ok projs) => some (s2, ⟨projs, none⟩)
    | some (s2, .error e) => some (s2, ⟨[], some e⟩)

/-- Translation of `NewSolver` (solver.go lines 19-30): a fresh solver with
empty `latest` and `rlm` (the logger is dropped; the source manager is passed
to each operation instead of being stored). -/
def NewSolver : SolverState :=
  { latest := [], sel := ⟨[], []⟩, unsel := [], versions := [],
    rp := ⟨⟨"", ""⟩, [], [], none⟩, rlm := [], attempts := 0 }

/-- The state right after `Solve`'s prologue seeds the root atom
(solver.go line 74): the first state "between driver steps". -/
def seedState (sm : SourceManager) (s : SolverState) (root : ProjectInfo)
    (toUpgrade : List ProjectName) : Option SolverState :=
  let s0 := solvePrep s root toUpgrade
  selectVersion sm s0 s0.rp.pa

/-- One driver step of the main loop (solver.go lines 83-126): either a commit
of the next atom together with its queue, or a call into `backtrack` after a
queue-construction failure (covering both a successful and a failed
backtrack, since both leave a state the driver observes). -/
inductive Step (sm : SourceManager) : SolverState → SolverState → Prop
  | commit (s : SolverState) (fuel : Nat) (ref : ProjectName) (s1 : SolverState)
      (q : VersionQueue) (v : Version) (s2 : SolverState) :
      nextUnselected s = some ref →
      createVersionQueue sm fuel s ref = some (s1, .ok q) →
      q.current = some v →
      selectVersion sm s1 ⟨q.ref, v⟩ = some s2 →
      Step sm s { s2 with versions := s2.versions ++ [q] }
  | bt (s : SolverState) (fuel fuel' : Nat) (ref : ProjectName) (s1 : SolverState)
      (e : SolveError) (s2 : SolverState) (b : Bool) :
      nextUnselected s = some ref →
      createVersionQueue sm fuel s ref = some (s1, .error e) →
      backtrack sm fuel' s1 = some (s2, b) →
      Step sm s s2

/-- States reachable between driver steps from a given starting state. -/
def Reach (sm : SourceManager) : SolverState → SolverState → Prop :=
  Relation.ReflTransGen (Step sm)

/-! Fixtures and theorem for the lock-reconciliation behaviour (§4.4,
scenario 7): `toUpgrade = [A]`, the lock carries `A@a1`, upstream lists
`[a3, a2, a1]`, and `A` exists upstream. -/

def smC1 : SourceManager :=
  { repoExists := fun n => if n = "A" then .ok true else .ok false,
    vendorCodeExists := fun _ => .ok false,
    listVersions := fun n => if n = "A" then .ok ["a3", "a2", "a1"] else .ok [],
    getProjectInfo := fun pa =>
      if pa = ⟨"R", "v1"⟩ then .ok ⟨⟨"R", "v1"⟩, [⟨"A", .anyC⟩], [], some [⟨"A", "a1"⟩]⟩
      else if pa.name = "A" then .ok ⟨pa, [], [], none⟩
      else .error "unknown atom" }

/-- Identical source manager except that `A` has no upstream repository. -/
def smC1b : SourceManager :=
  { smC1 with repoExists := fun _ => .ok false,
              vendorCodeExists := fun n => if n = "A" then .ok true else .ok false }

def rootC1 : ProjectInfo := ⟨⟨"R", "v1"⟩, [⟨"A", Constraint.anyC⟩], [], some [⟨"A", "a1"⟩]⟩

def sC1 : SolverState := (seedState smC1 NewSolver rootC1 ["A"]).getD NewSolver

/-- C1.  The claim describes §4.4 step 1: a project marked toUpgrade that
exists upstream gets the nil placeholder (lock ignored), and one that does
not exist upstream falls through to the lock.  The code at solver.go lines
267-281 has this branch inverted, contradicting its own comment: with `A`
marked toUpgrade and existing upstream, `getLockVersionIfValid` falls through
to the lock and returns `(A, a1)`, so the scenario-7 solve commits `A@a1`
instead of `A@a3`; and with `A` absent upstream it returns the nil
placeholder instead of using the lock. -/
theorem getLockVersionIfValid_upgrade_inverted :
    getLockVersionIfValid smC1 sC1 "A" = ⟨"A", "a1"⟩ ∧
    getLockVersionIfValid smC1 sC1 "A" ≠ nilpa ∧
    (Solve smC1 10 NewSolver rootC1 ["A"]).map (fun r => r.2.projects) =
      some [⟨"R", "v1"⟩, ⟨"A", "a1"⟩] ∧
    getLockVersionIfValid smC1b { sC1 with latest := ["A"] } "A" = nilpa :=
  ⟨rfl, by decide, rfl, rfl⟩

/-! The §4.2 frontier comparator, written from the spec's discriminator list,
and its agreement with the translated `unselectedComparator`. -/

/-- The comparator as §4.2 words it: equal names compare false; root first;
locked before unlocked; two locked names lexicographic; otherwise zero
available versions first, then fewer versions, then lexical tiebreak. -/
def specUnselectedComparator (sm : SourceManager) (s : SolverState)
    (iname jname : ProjectName) : Bool :=
  if iname = jname then false
  else if iname = s.rp.pa.name then true
  else if jname = s.rp.pa.name then false
  else
    let ilock := (alookup s.rlm iname).isSome
    let jlock := (alookup s.rlm jname).isSome
    if ilock && jlock then decide (iname < jname)
    else if ilock then true
    else if jlock then false
    else
      let iv := (listVersionsD sm iname).length
      let jv := (listVersionsD sm jname).length
      if iv = 0 && jv ≠ 0 then true
      else if iv ≠ 0 && jv = 0 then false
      else if iv ≠ jv then decide (iv < jv)
      else decide (iname < jname)

/-- C6.  The translated comparator decides i-before-j by exactly the §4.2
discriminators in order. -/
theorem unselectedComparator_follows_spec (sm : SourceManager) (s : SolverState)
    (i j : ProjectName) :
    unselectedComparator sm s i j = specUnselectedComparator sm s i j := by
  unfold unselectedComparator specUnselectedComparator
  by_cases h1 : i = j
  · simp [h1]
  · by_cases h2 : i = s.rp.pa.name
    · simp [h1, h2]
    · by_cases h3 : j = s.rp.pa.name
      · simp [h1, h2, h3]
      · cases h4 : (alookup s.rlm i).isSome <;> cases h5 : (alookup s.rlm j).isSome <;>
          simp [h1, h2, h3, h4, h5]

/-! The `fail` operation, §4.5.6, written from the spec's words and its
agreement with the translation. -/

/-- The §4.5.6 description of `fail`: never mark the root; otherwise split the
stack at the oldest queue carrying the name and set only its `failed` flag,
leaving everything else (including younger queues with the same ref)
untouched; do nothing when no queue carries the name. -/
def specFail (s : SolverState) (name : ProjectName) : SolverState :=
  if s.rp.pa.name = name then s
  else
    match s.versions.dropWhile (fun q => q.ref ≠ name) with
    | [] => s
    | q :: young =>
      { s with versions :=
          s.versions.takeWhile (fun q => q.ref ≠ name) ++ { q with failed := true } :: young }

theorem markFirst_eq_split (name : ProjectName) :
    ∀ vs : List VersionQueue,
    markFirst vs name =
      (match vs.dropWhile (fun q => q.ref ≠ name) with
       | [] => vs
       | q :: young => vs.takeWhile (fun q => q.ref ≠ name) ++ { q with failed := true } :: young) := by
  intro vs
  induction vs with
  | nil => rfl
  | cons q qs ih =>
    by_cases h : q.ref = name
    · simp [markFirst, h, List.dropWhile, List.takeWhile]
    · have hd : (decide ¬(q.ref = name)) = true := by simp [h]
      simp only [markFirst, h, if_neg, not_false_eq_true, List.dropWhile, List.takeWhile, hd,
        if_true]
      rw [ih]
      cases qs.dropWhile (fun q => decide ¬(q.ref = name)) <;> simp

/-- C8.  `fail` marks exactly the oldest queue carrying the name (none when
the name is the root's or absent), and changes nothing else. -/
theorem fail_follows_spec (s : SolverState) (name : ProjectName) :
    solverFail s name = specFail s name := by
  unfold solverFail specFail
  by_cases hr : s.rp.pa.name = name
  · simp [hr]
  · simp only [hr, if_neg, not_false_eq_true]
    rw [markFirst_eq_split]
    cases h : s.versions.dropWhile (fun q => q.ref ≠ name) <;> simp

/-! The §4.5.5 satisfiability check, written from the spec's words, and its
agreement with the translated `satisfiable`. -/

/-- A declared dep that phase 2 of §4.5.5 rejects: its constraint is disjoint
with the compound constraint on its target, or the target is selected at a
version it does not match. -/
def badDep (sel : Selection) (d : ProjectDep) : Bool :=
  !((getConstraint sel d.name).matchesAny d.constraint) ||
  (match selectedIn sel d.name with
   | some pa => !(d.constraint.cmatches pa.version)
   | none => false)

/-- The §4.5.5 description of `satisfiable`: phase 1 compares the atom to the
compound inbound constraint and on rejection fails exactly the rejecting
dependers; phase 2 walks the declared deps in order to the first bad one and
returns the corresponding failure with exactly the disagreeing siblings
failed, or the conflicting selected version. -/
def specSatisfiable (sm : SourceManager) (s : SolverState) (pi : ProjectAtom) :
    Option (SolverState × Option SolveError) :=
  if pi = emptyProjectAtom then none
  else
    let c := getConstraint s.sel pi.name
    if !(c.cmatches pi.version) then
      let inbound := getDependenciesOn s.sel pi.name
      let failparent := inbound.filter (fun dep => !(dep.dep.constraint.cmatches pi.version))
      some (failparent.foldl (fun st dep => solverFail st dep.depender.name) s,
            some (.versionNotAllowed pi failparent c))
    else
      match getDependenciesOf sm s.rp pi with
      | .error e => some (s, some (.smErr e))
      | .ok ds =>
        match ds.find? (badDep s.sel) with
        | none => some (s, none)
        | some d =>
          let c' := getConstraint s.sel d.name
          if !(c'.matchesAny d.constraint) then
            let siblings := getDependenciesOn s.sel d.name
            let failsib :=
              siblings.filter (fun sib => !(sib.dep.constraint.matchesAny d.constraint))
            let nofailsib :=
              siblings.filter (fun sib => sib.dep.constraint.matchesAny d.constraint)
            some (failsib.foldl (fun st sib => solverFail st sib.depender.name) s,
                  some (.disjointConstraint ⟨pi, d⟩ failsib nofailsib c'))
          else
            match selectedIn s.sel d.name with
            | some pa =>
              some (solverFail s d.name, some (.constraintNotAllowed ⟨pi, d⟩ pa.version))
            | none => some (s, none)

theorem parentFold_eq (pi : ProjectAtom) (deps : List Dependency) :
    ∀ (s : SolverState) (acc : List Dependency),
    deps.foldl
      (fun (acc : SolverState × List Dependency) dep =>
        if dep.dep.constraint.cmatches pi.version = false then
          (solverFail acc.1 dep.depender.name, acc.2 ++ [dep])
        else acc)
      (s, acc) =
    ((deps.filter (fun dep => !(dep.dep.constraint.cmatches pi.version))).foldl
        (fun st dep => solverFail st dep.depender.name) s,
     acc ++ deps.filter (fun dep => !(dep.dep.constraint.cmatches pi.version))) := by
  induction deps with
  | nil => simp
  | cons d rest ih =>
    intro s acc
    cases hh : d.dep.constraint.cmatches pi.version <;>
      simp [List.foldl_cons, List.filter_cons, hh, ih]

theorem sibFold_eq (dc : Constraint) (sibs : List Dependency) :
    ∀ (s : SolverState) (fs ns : List Dependency),
    sibs.foldl
      (fun (acc : SolverState × List Dependency × List Dependency) sibling =>
        if sibling.dep.constraint.matchesAny dc = false then
          (solverFail acc.1 sibling.depender.name, acc.2.1 ++ [sibling], acc.2.2)
        else (acc.1, acc.2.1, acc.2.2 ++ [sibling]))
      (s, fs, ns) =
    ((sibs.filter (fun sib => !(sib.dep.constraint.matchesAny dc))).foldl
        (fun st sib => solverFail st sib.depender.name) s,
     fs ++ sibs.filter (fun sib => !(sib.dep.constraint.matchesAny dc)),
     ns ++ sibs.filter (fun sib => sib.dep.constraint.matchesAny dc)) := by
  induction sibs with
  | nil => simp
  | cons sib rest ih =>
    intro s fs ns
    cases hh : sib.dep.constraint.matchesAny dc <;>
      simp [List.foldl_cons, List.filter_cons, hh, ih]

theorem satisfiableDeps_eq (sm : SourceManager) (pi : ProjectAtom)
    (ds : List ProjectDep) : ∀ (s : SolverState),
    satisfiableDeps sm pi s ds =
      (match ds.find? (badDep s.sel) with
       | none => (s, none)
       | some d =>
         if !((getConstraint s.sel d.name).matchesAny d.constraint) then
           (((getDependenciesOn s.sel d.name).filter
                (fun sib => !(sib.dep.constraint.matchesAny d.constraint))).foldl
              (fun st sib => solverFail st sib.depender.name) s,
            some (.disjointConstraint ⟨pi, d⟩
              ((getDependenciesOn s.sel d.name).filter
                (fun sib => !(sib.dep.constraint.matchesAny d.constraint)))
              ((getDependenciesOn s.sel d.name).filter
                (fun sib => sib.dep.constraint.matchesAny d.constraint))
              (getConstraint s.sel d.name)))
         else
           match selectedIn s.sel d.name with
           | some pa =>
             (solverFail s d.name, some (.constraintNotAllowed ⟨pi, d⟩ pa.version))
           | none => (s, none)) := by
  induction ds with
  | nil => intro s; rfl
  | cons d rest ih =>
    intro s
    cases hdj : (getConstraint s.sel d.name).matchesAny d.constraint with
    | true =>
      match hsel : selectedIn s.sel d.name with
      | some pa =>
        cases hm : d.constraint.cmatches pa.version with
        | true =>
          have hbd : badDep s.sel d = false := by simp [badDep, hdj, hsel, hm]
          simp [satisfiableDeps, hdj, hsel, hm, List.find?, hbd, ih]
        | false =>
          have hbd : badDep s.sel d = true := by simp [badDep, hdj, hsel, hm]
          simp [satisfiableDeps, hdj, hsel, hm, List.find?, hbd]
      | none =>
        have hbd : badDep s.sel d = false := by simp [badDep, hdj, hsel]
        simp [satisfiableDeps, hdj, hsel, List.find?, hbd, ih]
    | false =>
      have hbd : badDep s.sel d = true := by simp [badDep, hdj]
      simp [satisfiableDeps, hdj, List.find?, hbd, sibFold_eq]

/-- C2.  `satisfiable` behaves exactly as §4.5.5 and the claim describe. -/
theorem satisfiable_follows_spec (sm : SourceManager) (s : SolverState)
    (pi : ProjectAtom) : satisfiable sm s pi = specSatisfiable sm s pi := by
  unfold satisfiable specSatisfiable
  by_cases he : pi = emptyProjectAtom
  · simp [he]
  · cases hc : (getConstraint s.sel pi.name).cmatches pi.version with
    | true =>
      cases hfetch : getDependenciesOf sm s.rp pi with
      | error e => simp [he, hc, hfetch]
      | ok ds =>
        cases hfind : ds.find? (badDep s.sel) with
        | none => simp [he, hc, hfetch, satisfiableDeps_eq, hfind]
        | some d =>
          cases hdj : (getConstraint s.sel d.name).matchesAny d.constraint with
          | true =>
            cases hsel : selectedIn s.sel d.name with
            | none => simp [he, hc, hfetch, satisfiableDeps_eq, hfind, hdj, hsel]
            | some pa => simp [he, hc, hfetch, satisfiableDeps_eq, hfind, hdj, hsel]
          | false => simp [he, hc, hfetch, satisfiableDeps_eq, hfind, hdj]
    | false => simp [he, hc, parentFold_eq]

/-! Frame lemmas: `satisfiable` (and the `fail` marks it makes) touch nothing
but the `failed` flags on the version stack, and the `findValidVersion` walk
additionally only rewrites the walked queue. -/

/-- Everything in the solver state except the version stack. -/
def baseFrame (s s' : SolverState) : Prop :=
  s'.sel = s.sel ∧ s'.unsel = s.unsel ∧ s'.rp = s.rp ∧ s'.rlm = s.rlm ∧
  s'.latest = s.latest ∧ s'.attempts = s.attempts

/-- All queue fields except the `failed` flag. -/
def queueMeta (q : VersionQueue) :
    ProjectName × List Version × List SolveError × Bool × Bool :=
  (q.ref, q.pi, q.fails, q.hasLock, q.allLoaded)

theorem baseFrame_refl (s : SolverState) : baseFrame s s :=
  ⟨rfl, rfl, rfl, rfl, rfl, rfl⟩

theorem baseFrame_trans {s1 s2 s3 : SolverState} (h1 : baseFrame s1 s2)
    (h2 : baseFrame s2 s3) : baseFrame s1 s3 := by
  obtain ⟨a1, b1, c1, d1, e1, f1⟩ := h1
  obtain ⟨a2, b2, c2, d2, e2, f2⟩ := h2
  exact ⟨a2.trans a1, b2.trans b1, c2.trans c1, d2.trans d1, e2.trans e1, f2.trans f1⟩

theorem markFirst_meta (name : ProjectName) :
    ∀ vs : List VersionQueue, (markFirst vs name).map queueMeta = vs.map queueMeta := by
  intro vs
  induction vs with
  | nil => rfl
  | cons q qs ih =>
    by_cases h : q.ref = name <;> simp [markFirst, h, ih, queueMeta]

theorem solverFail_frame (s : SolverState) (n : ProjectName) :
    baseFrame s (solverFail s n) ∧
    (solverFail s n).versions.map queueMeta = s.versions.map queueMeta := by
  unfold solverFail
  by_cases h : s.rp.pa.name = n
  · simp [h, baseFrame_refl]
  · simp [h, markFirst_meta]
    exact baseFrame_refl _

theorem failFold_frame {α : Type} (f : α → ProjectName) :
    ∀ (l : List α) (s : SolverState),
    baseFrame s (l.foldl (fun st d => solverFail st (f d)) s) ∧
    (l.foldl (fun st d => solverFail st (f d)) s).versions.map queueMeta =
      s.versions.map queueMeta := by
  intro l
  induction l with
  | nil => intro s; exact ⟨baseFrame_refl s, rfl⟩
  | cons d rest ih =>
    intro s
    obtain ⟨h1, h2⟩ := ih (solverFail s (f d))
    obtain ⟨h3, h4⟩ := solverFail_frame s (f d)
    exact ⟨baseFrame_trans h3 h1, h2.trans h4⟩

theorem satisfiable_frame {sm : SourceManager} {s : SolverState} {pi : ProjectAtom}
    {s' : SolverState} {e : Option SolveError}
    (h : satisfiable sm s pi = some (s', e)) :
    baseFrame s s' ∧ s'.versions.map queueMeta = s.versions.map queueMeta := by
  rw [satisfiable_follows_spec] at h
  unfold specSatisfiable at h
  dsimp only at h
  repeat' split at h
  all_goals
    first
      | exact Option.noConfusion h
      | · injection h with h
          injection h with h1 h2
          subst h1
          first
            | exact ⟨baseFrame_refl s, rfl⟩
            | exact failFold_frame (fun dep : Dependency => dep.depender.name) _ s
            | exact solverFail_frame s _

theorem advance_ref_fails (sm : SourceManager) (q : VersionQueue) (e : SolveError)
    (q2 : VersionQueue) (r : Option String) (h : q.advance sm (some e) = (q2, r)) :
    q2.ref = q.ref ∧ q2.fails = q.fails ++ [e] := by
  unfold VersionQueue.advance at h
  dsimp only at h
  split at h
  · split at h <;> (injection h with h1 h2; subst h1; exact ⟨rfl, rfl⟩)
  · injection h with h1 h2
    subst h1
    exact ⟨rfl, rfl⟩

theorem fvvWalkD_spec (sm : SourceManager) :
    ∀ (fuel : Nat) (s : SolverState) (q : VersionQueue) (s' : SolverState)
      (q' : VersionQueue) (b : Bool),
    fvvWalkD sm fuel s q = some (s', q', b) →
    (baseFrame s s' ∧ s'.versions.map queueMeta = s.versions.map queueMeta) ∧
    q'.ref = q.ref ∧ ∃ nf, q'.fails = q.fails ++ nf := by
  intro fuel
  induction fuel with
  | zero => intro s q s' q' b h; exact Option.noConfusion h
  | succ fuel ih =>
    intro s q s' q' b h
    unfold fvvWalkD at h
    cases hcur : q.current with
    | none => rw [hcur] at h; exact Option.noConfusion h
    | some cur =>
      rw [hcur] at h
      dsimp only at h
      cases hsat : satisfiable sm s ⟨q.ref, cur⟩ with
      | none => rw [hsat] at h; exact Option.noConfusion h
      | some pr =>
        obtain ⟨s1, e1⟩ := pr
        cases e1 with
        | none =>
          rw [hsat] at h
          dsimp only at h
          injection h with h
          injection h with h1 h2
          injection h2 with h2 h3
          subst h1
          subst h2
          exact ⟨satisfiable_frame hsat, rfl, ⟨[], by simp⟩⟩
        | some err =>
          rw [hsat] at h
          dsimp only at h
          cases hadv : q.advance sm (some err) with
          | mk q2 r =>
            rw [hadv] at h
            obtain ⟨href, hfails⟩ := advance_ref_fails sm q err q2 r hadv
            cases r with
            | some msg =>
              dsimp only at h
              injection h with h
              injection h with h1 h2
              injection h2 with h2 h3
              subst h1
              subst h2
              exact ⟨satisfiable_frame hsat, href, ⟨[err], hfails⟩⟩
            | none =>
              dsimp only at h
              by_cases hex : q2.isExhausted = true
              · rw [if_pos hex] at h
                injection h with h
                injection h with h1 h2
                injection h2 with h2 h3
                subst h1
                subst h2
                exact ⟨satisfiable_frame hsat, href, ⟨[err], hfails⟩⟩
              · rw [if_neg hex] at h
                obtain ⟨⟨hb1, hb2⟩, hr, nf, hnf⟩ := ih s1 q2 s' q' b h
                obtain ⟨hb3, hb4⟩ := satisfiable_frame hsat
                refine ⟨⟨baseFrame_trans hb3 hb1, hb2.trans hb4⟩, hr.trans href, ⟨err :: nf, ?_⟩⟩
                rw [hnf, hfails]
                simp

/-- C7.  When the `findValidVersion` walk ends without success, the driver
fails the depender of the first (oldest) inbound edge on the queue's ref and
returns a `noVersion` aggregate whose `fails` is exactly the failure-log
suffix this walk appended. -/
theorem findValidVersion_failure_spec (sm : SourceManager) (fuel : Nat)
    (s : SolverState) (q : VersionQueue) (s' : SolverState) (q' : VersionQueue)
    (e : SolveError) (h : findValidVersion sm fuel s q = some (s', q', some e)) :
    ∃ s1 d rest nf,
      fvvWalkD sm fuel s q = some (s1, q', false) ∧
      s1.sel = s.sel ∧
      getDependenciesOn s.sel q.ref = d :: rest ∧
      s' = solverFail s1 d.depender.name ∧
      q'.fails = q.fails ++ nf ∧
      e = SolveError.noVersion q.ref nf := by
  unfold findValidVersion at h
  cases hcur : q.current with
  | none => rw [hcur] at h; exact Option.noConfusion h
  | some cur =>
    rw [hcur] at h
    dsimp only at h
    cases hwalk : fvvWalkD sm fuel s q with
    | none => rw [hwalk] at h; exact Option.noConfusion h
    | some tr =>
      obtain ⟨s1, q1, b⟩ := tr
      rw [hwalk] at h
      cases b with
      | true =>
        dsimp only at h
        injection h with h
        injection h with h1 h2
        injection h2 with h2 h3
        exact Option.noConfusion h3
      | false =>
        dsimp only at h
        cases hdeps : getDependenciesOn s1.sel q.ref with
        | nil => rw [hdeps] at h; exact Option.noConfusion h
        | cons d rest =>
          rw [hdeps] at h
          dsimp only at h
          injection h with h
          injection h with h1 h2
          injection h2 with h2 h3
          injection h3 with h3
          obtain ⟨⟨hbase, _⟩, _, nf, hnf⟩ := fvvWalkD_spec sm fuel s q s1 q1 false hwalk
          subst h2
          refine ⟨s1, d, rest, nf, rfl, hbase.1, ?_, h1.symm, hnf, ?_⟩
          · rw [← hbase.1]; exact hdeps
          · rw [← h3, hnf]
            simp

/-! Witness fixture for the `findValidVersion` failure path: the sole
candidate `a1` of project `A` is rejected by the inbound constraint
`among [a2]` and the queue exhausts. -/

def smC7 : SourceManager :=
  { repoExists := fun _ => .ok true,
    vendorCodeExists := fun _ => .ok false,
    listVersions := fun n => if n = "A" then .ok ["a1"] else .ok [],
    getProjectInfo := fun pa => if pa.name = "A" then .ok ⟨pa, [], [], none⟩ else .error "u" }

def sC7 : SolverState :=
  { latest := [],
    sel := ⟨[⟨"R", "v1"⟩], [("A", [⟨⟨"R", "v1"⟩, ⟨"A", .among ["a2"]⟩⟩])]⟩,
    unsel := ["A"], versions := [],
    rp := ⟨⟨"R", "v1"⟩, [⟨"A", .among ["a2"]⟩], [], none⟩,
    rlm := [], attempts := 0 }

def qC7 : VersionQueue := ⟨"A", ["a1"], [], false, false, true⟩

def errC7 : SolveError :=
  .versionNotAllowed ⟨"A", "a1"⟩ [⟨⟨"R", "v1"⟩, ⟨"A", .among ["a2"]⟩⟩] (.among ["a2"])

def qC7f : VersionQueue := ⟨"A", [], [errC7], false, false, true⟩

theorem findValidVersion_failure_spec_witness :
    ∃ s1 d rest nf,
      fvvWalkD smC7 2 sC7 qC7 = some (s1, qC7f, false) ∧
      s1.sel = sC7.sel ∧
      getDependenciesOn sC7.sel qC7.ref = d :: rest ∧
      sC7 = solverFail s1 d.depender.name ∧
      qC7f.fails = qC7.fails ++ nf ∧
      SolveError.noVersion "A" [errC7] = SolveError.noVersion qC7.ref nf :=
  findValidVersion_failure_spec smC7 2 sC7 qC7 sC7 qC7f (.noVersion "A" [errC7]) rfl

/-! Determinism of `Solve` and the frame behaviour of its prologue. -/

/-- C9.  With a deterministic source manager — one that gives identical
answers to identical requests, rendered as two managers that agree pointwise
on every request — two runs of `Solve` from the same solver value on the same
root and upgrade list produce identical results (same mutated solver, same
projects sequence, same failure). -/
theorem Solve_deterministic (sm1 sm2 : SourceManager) (fuel : Nat)
    (s : SolverState) (root : ProjectInfo) (up : List ProjectName)
    (hre : ∀ n, sm1.repoExists n = sm2.repoExists n)
    (hve : ∀ n, sm1.vendorCodeExists n = sm2.vendorCodeExists n)
    (hlv : ∀ n, sm1.listVersions n = sm2.listVersions n)
    (hgp : ∀ pa, sm1.getProjectInfo pa = sm2.getProjectInfo pa) :
    Solve sm1 fuel s root up = Solve sm2 fuel s root up := by
  obtain ⟨r1, v1, l1, g1⟩ := sm1
  obtain ⟨r2, v2, l2, g2⟩ := sm2
  have h1 : r1 = r2 := funext hre
  have h2 : v1 = v2 := funext hve
  have h3 : l1 = l2 := funext hlv
  have h4 : g1 = g2 := funext hgp
  subst h1; subst h2; subst h3; subst h4
  rfl

theorem Solve_deterministic_witness :
    Solve smC1 10 NewSolver rootC1 ["A"] = Solve smC1 10 NewSolver rootC1 ["A"] :=
  Solve_deterministic smC1 smC1 10 NewSolver rootC1 ["A"]
    (fun _ => rfl) (fun _ => rfl) (fun _ => rfl) (fun _ => rfl)

theorem insertName_mem (n : ProjectName) :
    ∀ (up : List ProjectName) (l : List ProjectName), n ∈ l → n ∈ up.foldl insertName l := by
  intro up
  induction up with
  | nil => intro l h; exact h
  | cons u rest ih =>
    intro l h
    refine ih (insertName l u) ?_
    unfold insertName
    split
    · exact h
    · exact List.mem_append_left _ h

theorem alookup_aset_other {α : Type} (k n : ProjectName) (hk : k ≠ n) (v : α) :
    ∀ m : List (ProjectName × α), alookup (aset m k v) n = alookup m n := by
  intro m
  induction m with
  | nil => simp [aset, alookup, hk]
  | cons p rest ih =>
    obtain ⟨pk, pv⟩ := p
    by_cases hp : pk = k
    · simp [aset, alookup, hp, hk, ih]
    · simp [aset, alookup, hp, hk, ih]

theorem rlmFold_other (n : ProjectName) :
    ∀ (lps : List LockedProject) (m : List (ProjectName × LockedProject)),
    (∀ lp ∈ lps, lp.name ≠ n) →
    alookup (lps.foldl (fun m lp => aset m lp.name lp) m) n = alookup m n := by
  intro lps
  induction lps with
  | nil => intro m _; rfl
  | cons lp rest ih =>
    intro m h
    rw [List.foldl_cons, ih _ (fun x hx => h x (List.mem_cons_of_mem lp hx)),
        alookup_aset_other lp.name n (h lp (List.mem_cons_self lp rest)) lp m]

/-- C10.  `Solve`'s prologue (`solvePrep`, solver.go lines 52-71) resets only
the selection and the frontier: the version stack and attempts counter are
carried over untouched, prior `latest` members stay, and prior `rlm` entries
whose name the new root lock does not mention stay; a freshly built solver
(`NewSolver`) is the only way to start with all four empty. -/
theorem solvePrep_frame_spec (s : SolverState) (root : ProjectInfo)
    (up : List ProjectName) :
    (solvePrep s root up).versions = s.versions ∧
    (solvePrep s root up).attempts = s.attempts ∧
    (solvePrep s root up).rp = root ∧
    (solvePrep s root up).sel = ⟨[], []⟩ ∧
    (solvePrep s root up).unsel = [] ∧
    (∀ n, n ∈ s.latest → n ∈ (solvePrep s root up).latest) ∧
    (∀ n, (∀ lp ∈ root.lock.getD [], lp.name ≠ n) →
      alookup (solvePrep s root up).rlm n = alookup s.rlm n) ∧
    NewSolver.latest = [] ∧ NewSolver.rlm = [] ∧ NewSolver.versions = [] ∧
    NewSolver.attempts = 0 := by
  refine ⟨rfl, rfl, rfl, rfl, rfl, fun n h => insertName_mem n up s.latest h, ?_,
          rfl, rfl, rfl, rfl⟩
  intro n h
  unfold solvePrep
  cases hl : root.lock with
  | none => rfl
  | some lps =>
    dsimp only
    exact rlmFold_other n lps s.rlm (by rw [hl] at h; simpa using h)

theorem solvePrep_frame_spec_witness :
    (solvePrep NewSolver rootC1 ["A"]).versions = NewSolver.versions ∧
    "A" ∈ (solvePrep NewSolver rootC1 ["A"]).latest ∧
    alookup (solvePrep NewSolver rootC1 ["A"]).rlm "Z" = alookup NewSolver.rlm "Z" := by
  obtain ⟨h1, _, _, _, _, hlat, hrlm, _⟩ :=
    solvePrep_frame_spec { NewSolver with latest := ["A"] } rootC1 ["A"]
  obtain ⟨h1', _, _, _, _, _, hrlm', _⟩ := solvePrep_frame_spec NewSolver rootC1 ["A"]
  refine ⟨h1', ?_, hrlm' "Z" (by decide)⟩
  have := hlat "A" (by decide)
  revert this
  decide

/-! Characterizations of `selectVersion` and `unselectLast`, and the
select/unselect inverse law. -/

theorem alookup_aset_same {α : Type} (n : ProjectName) (v : α) :
    ∀ m : List (ProjectName × α), alookup (aset m n v) n = some v := by
  intro m
  induction m with
  | nil => simp [aset, alookup]
  | cons p rest ih =>
    obtain ⟨pk, pv⟩ := p
    by_cases hp : pk = n <;> simp [aset, alookup, hp, ih]

theorem mem_heapInsert (cmp : ProjectName → ProjectName → Bool) (x m : ProjectName) :
    ∀ l : List ProjectName, m ∈ heapInsert cmp x l ↔ m = x ∨ m ∈ l := by
  intro l
  induction l with
  | nil => simp [heapInsert]
  | cons y ys ih =>
    unfold heapInsert
    split
    · simp
    · simp only [List.mem_cons, ih]
      tauto

theorem nodup_heapInsert (cmp : ProjectName → ProjectName → Bool) (x : ProjectName) :
    ∀ l : List ProjectName, x ∉ l → l.Nodup → (heapInsert cmp x l).Nodup := by
  intro l
  induction l with
  | nil => intro _ _; simp [heapInsert]
  | cons y ys ih =>
    intro hx hnd
    unfold heapInsert
    split
    · exact List.Nodup.cons (by simpa using hx) hnd
    · rw [List.nodup_cons] at hnd
      refine List.Nodup.cons ?_ (ih (fun h => hx (List.mem_cons_of_mem y h)) hnd.2)
      rw [mem_heapInsert]
      rintro (h | h)
      · exact hx (h ▸ List.mem_cons_self y ys)
      · exact hnd.1 h

/-- The inbound edges an atom's declared-deps list contributes to a name, in
declaration order. -/
def depEdges (pa : ProjectAtom) (ds : List ProjectDep) (n : ProjectName) :
    List Dependency :=
  (ds.filter (fun d => d.name = n)).map (fun d => ⟨pa, d⟩)

theorem depEdges_nil (pa : ProjectAtom) (n : ProjectName) : depEdges pa [] n = [] := rfl

theorem depEdges_cons (pa : ProjectAtom) (d : ProjectDep) (ds : List ProjectDep)
    (n : ProjectName) :
    depEdges pa (d :: ds) n =
      (if d.name = n then [(⟨pa, d⟩ : Dependency)] else []) ++ depEdges pa ds n := by
  unfold depEdges
  by_cases h : d.name = n <;> simp [List.filter_cons, h]

theorem alookup_aset_ne {α : Type} (k n : ProjectName) (hk : ¬ k = n) (v : α)
    (m : List (ProjectName × α)) : alookup (aset m k v) n = alookup m n :=
  alookup_aset_other k n hk v m

theorem selDepStep_char (sm : SourceManager) (pa : ProjectAtom) (s : SolverState)
    (d : ProjectDep) :
    (selDepStep sm pa s d).sel.projects = s.sel.projects ∧
    (selDepStep sm pa s d).versions = s.versions ∧
    (selDepStep sm pa s d).rp = s.rp ∧
    (selDepStep sm pa s d).rlm = s.rlm ∧
    (selDepStep sm pa s d).latest = s.latest ∧
    (selDepStep sm pa s d).attempts = s.attempts ∧
    (∀ n, getDependenciesOn (selDepStep sm pa s d).sel n =
      (if d.name = n then getDependenciesOn s.sel n ++ [(⟨pa, d⟩ : Dependency)]
       else getDependenciesOn s.sel n)) ∧
    (∀ m, m ∈ (selDepStep sm pa s d).unsel ↔
      (m ∈ s.unsel ∨ (m = d.name ∧ getDependenciesOn s.sel d.name = []))) := by
  unfold selDepStep
  dsimp only
  have hlen : (getDependenciesOn s.sel d.name ++ [(⟨pa, d⟩ : Dependency)]).length = 1 ↔
      getDependenciesOn s.sel d.name = [] := by
    simp [List.length_append]
  by_cases hempty : getDependenciesOn s.sel d.name = []
  · rw [if_pos (hlen.mpr hempty)]
    refine ⟨rfl, rfl, rfl, rfl, rfl, rfl, ?_, ?_⟩
    · intro n
      by_cases hn : d.name = n
      · subst hn
        simp [getDependenciesOn, alookup_aset_same]
      · simp [getDependenciesOn, alookup_aset_ne d.name n hn, hn]
    · intro m
      rw [mem_heapInsert]
      simp [hempty]
      tauto
  · rw [if_neg (fun h => hempty (hlen.mp h))]
    refine ⟨rfl, rfl, rfl, rfl, rfl, rfl, ?_, ?_⟩
    · intro n
      by_cases hn : d.name = n
      · subst hn
        simp [getDependenciesOn, alookup_aset_same]
      · simp [getDependenciesOn, alookup_aset_ne d.name n hn, hn]
    · intro m
      simp [hempty]

theorem selFold_spec (sm : SourceManager) (pa : ProjectAtom) :
    ∀ (ds : List ProjectDep) (s : SolverState),
    (∀ n, n ∈ s.unsel → getDependenciesOn s.sel n ≠ []) →
    s.unsel.Nodup →
    (ds.foldl (selDepStep sm pa) s).sel.projects = s.sel.projects ∧
    (ds.foldl (selDepStep sm pa) s).versions = s.versions ∧
    (ds.foldl (selDepStep sm pa) s).rp = s.rp ∧
    (ds.foldl (selDepStep sm pa) s).rlm = s.rlm ∧
    (ds.foldl (selDepStep sm pa) s).latest = s.latest ∧
    (ds.foldl (selDepStep sm pa) s).attempts = s.attempts ∧
    (∀ n, getDependenciesOn (ds.foldl (selDepStep sm pa) s).sel n =
      getDependenciesOn s.sel n ++ depEdges pa ds n) ∧
    (∀ m, m ∈ (ds.foldl (selDepStep sm pa) s).unsel ↔
      (m ∈ s.unsel ∨ (m ∈ ds.map ProjectDep.name ∧ getDependenciesOn s.sel m = []))) ∧
    (ds.foldl (selDepStep sm pa) s).unsel.Nodup := by
  intro ds
  induction ds with
  | nil =>
    intro s Hu Hnd
    refine ⟨rfl, rfl, rfl, rfl, rfl, rfl, ?_, ?_, Hnd⟩
    · intro n; simp [depEdges]
    · intro m; simp
  | cons d rest ih =>
    intro s Hu Hnd
    obtain ⟨hp1, hv1, hrp1, hrlm1, hl1, ha1, hdeps1, hmem1⟩ := selDepStep_char sm pa s d
    have Hu1 : ∀ n, n ∈ (selDepStep sm pa s d).unsel →
        getDependenciesOn (selDepStep sm pa s d).sel n ≠ [] := by
      intro n hn
      rw [hdeps1 n]
      rcases (hmem1 n).mp hn with h | ⟨rfl, hem⟩
      · by_cases he : d.name = n
        · simp [he]
        · simp [he]
          exact Hu n h
      · simp
    have Hnd1 : (selDepStep sm pa s d).unsel.Nodup := by
      unfold selDepStep
      dsimp only
      split
      · refine nodup_heapInsert _ _ _ ?_ Hnd
        intro hmem
        have hone : (getDependenciesOn s.sel d.name ++ [(⟨pa, d⟩ : Dependency)]).length = 1 := by
          assumption
        have : getDependenciesOn s.sel d.name = [] := by
          simpa [List.length_append] using hone
        exact Hu d.name hmem this
      · exact Hnd
    obtain ⟨hp2, hv2, hrp2, hrlm2, hl2, ha2, hdeps2, hmem2, hnd2⟩ :=
      ih (selDepStep sm pa s d) Hu1 Hnd1
    rw [List.foldl_cons]
    refine ⟨hp2.trans hp1, hv2.trans hv1, hrp2.trans hrp1, hrlm2.trans hrlm1,
            hl2.trans hl1, ha2.trans ha1, ?_, ?_, hnd2⟩
    · intro n
      rw [hdeps2 n, hdeps1 n, depEdges_cons]
      by_cases hn : d.name = n <;> simp [hn]
    · intro m
      rw [hmem2 m, hmem1 m, hdeps1 m]
      by_cases hm : d.name = m
      · subst hm
        by_cases he : getDependenciesOn s.sel d.name = [] <;> simp [he]
      · have : ¬ m = d.name := fun h => hm h.symm
        simp [hm, this]
        try tauto

theorem unselDepStep_char (s : SolverState) (d : ProjectDep)
    (hne : getDependenciesOn s.sel d.name ≠ []) (hnd : s.unsel.Nodup) :
    ∃ s1, unselDepStep s d = some s1 ∧
    s1.sel.projects = s.sel.projects ∧
    s1.versions = s.versions ∧ s1.rp = s.rp ∧ s1.rlm = s.rlm ∧
    s1.latest = s.latest ∧ s1.attempts = s.attempts ∧
    (∀ n, getDependenciesOn s1.sel n =
      (if d.name = n then (getDependenciesOn s.sel n).dropLast
       else getDependenciesOn s.sel n)) ∧
    (∀ m, m ∈ s1.unsel ↔
      (m ∈ s.unsel ∧ ¬(m = d.name ∧ (getDependenciesOn s.sel d.name).length = 1))) ∧
    s1.unsel.Nodup := by
  unfold unselDepStep
  cases hsib : getDependenciesOn s.sel d.name with
  | nil => exact absurd hsib hne
  | cons e es =>
    dsimp only
    by_cases hemp : (e :: es).dropLast.isEmpty = true
    · have hes : es = [] := by
        cases es with
        | nil => rfl
        | cons x xs => simp [List.dropLast] at hemp
      subst hes
      rw [if_pos hemp]
      refine ⟨_, rfl, rfl, rfl, rfl, rfl, rfl, rfl, ?_, ?_, ?_⟩
      · intro n
        by_cases hn : d.name = n
        · subst hn
          simp only [getDependenciesOn] at hsib ⊢
          rw [if_pos trivial, alookup_aset_same, hsib]
          simp
        · simp [getDependenciesOn, alookup_aset_ne d.name n hn, hn]
      · intro m
        rw [hnd.mem_erase_iff]
        simp only [List.length_cons, List.length_nil]
        constructor
        · rintro ⟨hne', hmem⟩
          exact ⟨hmem, fun h => hne' h.1⟩
        · rintro ⟨hmem, hcond⟩
          exact ⟨fun he => hcond ⟨he, trivial⟩, hmem⟩
      · exact hnd.erase _
    · have hes : es ≠ [] := by
        intro h
        subst h
        simp [List.dropLast] at hemp
      rw [if_neg hemp]
      refine ⟨_, rfl, rfl, rfl, rfl, rfl, rfl, rfl, ?_, ?_, hnd⟩
      · intro n
        by_cases hn : d.name = n
        · subst hn
          simp only [getDependenciesOn] at hsib ⊢
          rw [if_pos trivial, alookup_aset_same, hsib]
          simp
        · simp [getDependenciesOn, alookup_aset_ne d.name n hn, hn]
      · intro m
        simp
        intro _ _
        exact hes

theorem dropLast_eq_take' {α : Type} (l : List α) : l.dropLast = l.take (l.length - 1) := by
  induction l with
  | nil => rfl
  | cons a t ih =>
    cases t with
    | nil => rfl
    | cons b u =>
      simp only [List.dropLast, List.length_cons, Nat.add_sub_cancel, List.take]
      rw [ih]
      simp

theorem count_cons_name (d : ProjectDep) (rest : List ProjectDep) (m : ProjectName) :
    ((d :: rest).map ProjectDep.name).count m =
      (rest.map ProjectDep.name).count m + (if m = d.name then 1 else 0) := by
  rw [List.map_cons, List.count_cons]
  by_cases h : m = d.name
  · simp [h]
  · have h2 : ¬ d.name = m := fun hh => h hh.symm
    simp [h, h2]

theorem mem_cons_name (d : ProjectDep) (rest : List ProjectDep) (m : ProjectName) :
    (m ∈ (d :: rest).map ProjectDep.name) ↔ (m = d.name ∨ m ∈ rest.map ProjectDep.name) := by
  simp

theorem unselFold_spec :
    ∀ (ds : List ProjectDep) (s : SolverState),
    (∀ n, (ds.map ProjectDep.name).count n ≤ (getDependenciesOn s.sel n).length) →
    s.unsel.Nodup →
    ∃ s', ds.foldlM unselDepStep s = some s' ∧
    s'.sel.projects = s.sel.projects ∧
    s'.versions = s.versions ∧ s'.rp = s.rp ∧ s'.rlm = s.rlm ∧
    s'.latest = s.latest ∧ s'.attempts = s.attempts ∧
    (∀ n, getDependenciesOn s'.sel n =
      (getDependenciesOn s.sel n).take
        ((getDependenciesOn s.sel n).length - (ds.map ProjectDep.name).count n)) ∧
    (∀ m, m ∈ s'.unsel ↔
      (m ∈ s.unsel ∧
       ¬(m ∈ ds.map ProjectDep.name ∧
         (getDependenciesOn s.sel m).length = (ds.map ProjectDep.name).count m))) ∧
    s'.unsel.Nodup := by
  intro ds
  induction ds with
  | nil =>
    intro s Hcnt Hnd
    refine ⟨s, rfl, rfl, rfl, rfl, rfl, rfl, rfl, ?_, ?_, Hnd⟩
    · intro n; simp
    · intro m; simp
  | cons d rest ih =>
    intro s Hcnt Hnd
    have hc0 : (rest.map ProjectDep.name).count d.name + 1 ≤
        (getDependenciesOn s.sel d.name).length := by
      have := Hcnt d.name
      rw [count_cons_name] at this
      simpa using this
    have hne : getDependenciesOn s.sel d.name ≠ [] := by
      intro h
      rw [h] at hc0
      simp at hc0
    obtain ⟨s1, hstep, hp1, hv1, hrp1, hrlm1, hl1, ha1, hdeps1, hmem1, hnd1⟩ :=
      unselDepStep_char s d hne Hnd
    have hd_eq : getDependenciesOn s1.sel d.name =
        (getDependenciesOn s.sel d.name).dropLast := by
      rw [hdeps1 d.name, if_pos rfl]
    have hd_len : (getDependenciesOn s1.sel d.name).length =
        (getDependenciesOn s.sel d.name).length - 1 := by
      rw [hd_eq, List.length_dropLast]
    have hother : ∀ n, ¬ d.name = n →
        getDependenciesOn s1.sel n = getDependenciesOn s.sel n := by
      intro n hn
      rw [hdeps1 n, if_neg hn]
    have Hcnt1 : ∀ n, (rest.map ProjectDep.name).count n ≤
        (getDependenciesOn s1.sel n).length := by
      intro n
      by_cases hn : d.name = n
      · subst hn
        rw [hd_len]
        omega
      · rw [hother n hn]
        have := Hcnt n
        rw [count_cons_name] at this
        have hmn : ¬ n = d.name := fun h => hn h.symm
        rw [if_neg hmn] at this
        omega
    obtain ⟨s', hfold, hp2, hv2, hrp2, hrlm2, hl2, ha2, hdeps2, hmem2, hnd2⟩ :=
      ih s1 Hcnt1 hnd1
    refine ⟨s', ?_, hp2.trans hp1, hv2.trans hv1, hrp2.trans hrp1, hrlm2.trans hrlm1,
            hl2.trans hl1, ha2.trans ha1, ?_, ?_, hnd2⟩
    · rw [List.foldlM_cons, hstep]
      exact hfold
    · intro n
      rw [hdeps2 n, count_cons_name]
      by_cases hn : d.name = n
      · subst hn
        rw [hd_eq, if_pos rfl, List.length_dropLast, dropLast_eq_take', List.take_take]
        have hmin : min ((getDependenciesOn s.sel d.name).length - 1 -
              (rest.map ProjectDep.name).count d.name)
            ((getDependenciesOn s.sel d.name).length - 1) =
            (getDependenciesOn s.sel d.name).length - 1 -
              (rest.map ProjectDep.name).count d.name :=
          Nat.min_eq_left (by omega)
        rw [hmin]
        congr 1
        omega
      · have hmn : ¬ n = d.name := fun h => hn h.symm
        rw [hother n hn, if_neg hmn]
        simp
    · intro m
      rw [hmem2 m, hmem1 m, mem_cons_name, count_cons_name]
      by_cases hm : m = d.name
      · subst hm
        rw [if_pos rfl]
        have hLm : (getDependenciesOn s1.sel d.name).length =
            (getDependenciesOn s.sel d.name).length - 1 := hd_len
        constructor
        · rintro ⟨⟨hmem, hc1⟩, hc2⟩
          refine ⟨hmem, ?_⟩
          rintro ⟨_, hLen⟩
          by_cases hrest : d.name ∈ rest.map ProjectDep.name
          · refine hc2 ⟨hrest, ?_⟩
            rw [hLm]
            omega
          · have : (rest.map ProjectDep.name).count d.name = 0 :=
              List.count_eq_zero.mpr hrest
            exact hc1 ⟨rfl, by omega⟩
        · rintro ⟨hmem, hcond⟩
          have hL1 : ¬ (getDependenciesOn s.sel d.name).length = 1 := by
            intro h1
            have hz : (rest.map ProjectDep.name).count d.name = 0 := by omega
            exact hcond ⟨Or.inl rfl, by omega⟩
          refine ⟨⟨hmem, fun h => hL1 h.2⟩, ?_⟩
          rintro ⟨hrest, hLen⟩
          rw [hLm] at hLen
          exact hcond ⟨Or.inr hrest, by omega⟩
      · rw [if_neg hm]
        have hnm : ¬ d.name = m := fun h => hm h.symm
        rw [hother m hnm]
        constructor
        · rintro ⟨⟨hmem, _⟩, hc2⟩
          refine ⟨hmem, ?_⟩
          rintro ⟨hor, hLen⟩
          rcases hor with h | h
          · exact hm h
          · exact hc2 ⟨h, by omega⟩
        · rintro ⟨hmem, hcond⟩
          refine ⟨⟨hmem, fun h => hm h.1⟩, ?_⟩
          rintro ⟨hrest, hLen⟩
          exact hcond ⟨Or.inr hrest, by omega⟩

theorem selectVersion_spec (sm : SourceManager) (s : SolverState) (pa : ProjectAtom)
    (ds : List ProjectDep) (hfetch : getDependenciesOf sm s.rp pa = .ok ds)
    (Hu : ∀ n, n ∈ s.unsel → getDependenciesOn s.sel n ≠ [])
    (Hnd : s.unsel.Nodup) :
    ∃ s', selectVersion sm s pa = some s' ∧
    s'.sel.projects = s.sel.projects ++ [pa] ∧
    s'.versions = s.versions ∧ s'.rp = s.rp ∧ s'.rlm = s.rlm ∧
    s'.latest = s.latest ∧ s'.attempts = s.attempts ∧
    (∀ n, getDependenciesOn s'.sel n = getDependenciesOn s.sel n ++ depEdges pa ds n) ∧
    (∀ m, m ∈ s'.unsel ↔
      ((m ∈ s.unsel ∧ ¬ m = pa.name) ∨
       (m ∈ ds.map ProjectDep.name ∧ getDependenciesOn s.sel m = []))) ∧
    s'.unsel.Nodup := by
  unfold selectVersion
  dsimp only
  rw [hfetch]
  set s1 : SolverState :=
    { s with unsel := s.unsel.erase pa.name,
             sel := { s.sel with projects := s.sel.projects ++ [pa] } } with hs1
  have hdeq : ∀ n, getDependenciesOn s1.sel n = getDependenciesOn s.sel n := fun n => rfl
  have Hu1 : ∀ n, n ∈ s1.unsel → getDependenciesOn s1.sel n ≠ [] := by
    intro n hn
    rw [hdeq n]
    exact Hu n (List.mem_of_mem_erase hn)
  have Hnd1 : s1.unsel.Nodup := Hnd.erase pa.name
  obtain ⟨hp, hv, hrp, hrlm, hl, ha, hdeps, hmem, hnd⟩ := selFold_spec sm pa ds s1 Hu1 Hnd1
  refine ⟨_, rfl, ?_, hv, hrp, hrlm, hl, ha, ?_, ?_, hnd⟩
  · rw [hp]
  · intro n
    rw [hdeps n, hdeq n]
  · intro m
    rw [hmem m]
    have : m ∈ s1.unsel ↔ (m ∈ s.unsel ∧ ¬ m = pa.name) := by
      show m ∈ s.unsel.erase pa.name ↔ _
      rw [Hnd.mem_erase_iff]
      tauto
    rw [this, hdeq m]

theorem unselectLast_spec (sm : SourceManager) (s : SolverState)
    (ps : List ProjectAtom) (pa : ProjectAtom) (hproj : s.sel.projects = ps ++ [pa])
    (ds : List ProjectDep) (hfetch : getDependenciesOf sm s.rp pa = .ok ds)
    (Hcnt : ∀ n, (ds.map ProjectDep.name).count n ≤ (getDependenciesOn s.sel n).length)
    (Hpn : pa.name ∉ s.unsel) (Hnd : s.unsel.Nodup) :
    ∃ s', unselectLast sm s = some s' ∧
    s'.sel.projects = ps ∧
    s'.versions = s.versions ∧ s'.rp = s.rp ∧ s'.rlm = s.rlm ∧
    s'.latest = s.latest ∧ s'.attempts = s.attempts ∧
    (∀ n, getDependenciesOn s'.sel n =
      (getDependenciesOn s.sel n).take
        ((getDependenciesOn s.sel n).length - (ds.map ProjectDep.name).count n)) ∧
    (∀ m, m ∈ s'.unsel ↔
      ((m = pa.name ∨ m ∈ s.unsel) ∧
       ¬(m ∈ ds.map ProjectDep.name ∧
         (getDependenciesOn s.sel m).length = (ds.map ProjectDep.name).count m))) ∧
    s'.unsel.Nodup := by
  unfold unselectLast
  rw [hproj, List.getLast?_concat]
  dsimp only
  rw [List.dropLast_concat]
  set s1 : SolverState := { s with sel := { s.sel with projects := ps } } with hs1
  set s2 : SolverState := { s1 with unsel := heapInsert (cmpOf sm s1) pa.name s1.unsel }
    with hs2
  rw [hfetch]
  have hdeq : ∀ n, getDependenciesOn s2.sel n = getDependenciesOn s.sel n := fun n => rfl
  have Hcnt2 : ∀ n, (ds.map ProjectDep.name).count n ≤
      (getDependenciesOn s2.sel n).length := fun n => Hcnt n
  have Hnd2 : s2.unsel.Nodup := nodup_heapInsert _ _ _ Hpn Hnd
  obtain ⟨s', hfold, hp, hv, hrp, hrlm, hl, ha, hdeps, hmem, hnd⟩ :=
    unselFold_spec ds s2 Hcnt2 Hnd2
  refine ⟨s', hfold, hp, hv, hrp, hrlm, hl, ha, ?_, ?_, hnd⟩
  · intro n
    rw [hdeps n, hdeq n]
  · intro m
    rw [hmem m, hdeq m]
    have : m ∈ s2.unsel ↔ (m = pa.name ∨ m ∈ s.unsel) := mem_heapInsert _ _ _ _
    rw [this]

theorem depEdges_length (pa : ProjectAtom) (n : ProjectName) :
    ∀ ds : List ProjectDep,
    (depEdges pa ds n).length = (ds.map ProjectDep.name).count n := by
  intro ds
  induction ds with
  | nil => rfl
  | cons d rest ih =>
    rw [depEdges_cons, count_cons_name, List.length_append, ih]
    by_cases h : d.name = n
    · subst h
      simp [Nat.add_comm]
    · have h2 : ¬ n = d.name := fun hh => h hh.symm
      simp [h, h2]

/-- Fixtures for the select/unselect inverse law: selecting `A@a1` introduces
a first edge on the fresh name `B`. -/
def smC4 : SourceManager :=
  { repoExists := fun _ => .ok true,
    vendorCodeExists := fun _ => .ok false,
    listVersions := fun _ => .ok [],
    getProjectInfo := fun pa =>
      if pa = ⟨"A", "a1"⟩ then .ok ⟨pa, [⟨"B", .anyC⟩], [], none⟩
      else .ok ⟨pa, [], [], none⟩ }

def sC4 : SolverState :=
  { latest := [], sel := ⟨[⟨"R", "v1"⟩], []⟩, unsel := ["A"], versions := [],
    rp := ⟨⟨"R", "v1"⟩, [], [], none⟩, rlm := [], attempts := 0 }

set_option maxRecDepth 8000 in
/-- C4 counterexample.  Selecting `A@a1` (whose only declared dep is on the
fresh name `B`) and then unselecting restores the committed projects and the
frontier, but the deps mapping keeps `B` as a key with an empty edge list —
the Go map write in `unselectLast` never deletes the key — so the state is
not restored bit-for-bit. -/
theorem select_unselect_not_bit_for_bit :
    ((selectVersion smC4 sC4 ⟨"A", "a1"⟩).bind (unselectLast smC4)).map
        (fun s' => s'.sel.deps) = some [("B", [])] ∧
    sC4.sel.deps = [] ∧
    ((selectVersion smC4 sC4 ⟨"A", "a1"⟩).bind (unselectLast smC4)) ≠ some sC4 := by
  refine ⟨rfl, rfl, ?_⟩
  intro h
  have h2 : (some [("B", ([] : List Dependency))] :
      Option (List (ProjectName × List Dependency))) = some [] := by
    calc (some [("B", ([] : List Dependency))] :
        Option (List (ProjectName × List Dependency)))
        = ((selectVersion smC4 sC4 ⟨"A", "a1"⟩).bind (unselectLast smC4)).map
            (fun s' => s'.sel.deps) := by rfl
      _ = (some sC4).map (fun s' => s'.sel.deps) := by rw [h]
      _ = some [] := rfl
  simp at h2

/-- C4 amended.  For an atom whose name is on the frontier of a well-formed
state (frontier names have edges, no duplicates) and whose declared-deps
lookup succeeds, `selectVersion` then `unselectLast` restores the committed
projects, the version stack and the per-name edge lists exactly, and the
frontier up to heap order (same members); only deps keys first introduced by
the atom survive, holding empty edge lists. -/
theorem select_unselect_inverse_amended (sm : SourceManager) (s : SolverState)
    (pa : ProjectAtom) (ds : List ProjectDep)
    (hfetch : getDependenciesOf sm s.rp pa = .ok ds)
    (Hu : ∀ n, n ∈ s.unsel → getDependenciesOn s.sel n ≠ [])
    (Hnd : s.unsel.Nodup) (Hpa : pa.name ∈ s.unsel) :
    ∃ s1 s', selectVersion sm s pa = some s1 ∧ unselectLast sm s1 = some s' ∧
    s'.sel.projects = s.sel.projects ∧
    s'.versions = s.versions ∧ s'.rp = s.rp ∧ s'.rlm = s.rlm ∧
    s'.latest = s.latest ∧ s'.attempts = s.attempts ∧
    (∀ n, getDependenciesOn s'.sel n = getDependenciesOn s.sel n) ∧
    (∀ m, m ∈ s'.unsel ↔ m ∈ s.unsel) ∧
    s'.unsel.Nodup := by
  obtain ⟨s1, hsel, hp1, hv1, hrp1, hrlm1, hl1, ha1, hdeps1, hmem1, hnd1⟩ :=
    selectVersion_spec sm s pa ds hfetch Hu Hnd
  have hfetch1 : getDependenciesOf sm s1.rp pa = .ok ds := by rw [hrp1]; exact hfetch
  have Hcnt1 : ∀ n, (ds.map ProjectDep.name).count n ≤
      (getDependenciesOn s1.sel n).length := by
    intro n
    rw [hdeps1 n, List.length_append, depEdges_length]
    omega
  have Hpn1 : pa.name ∉ s1.unsel := by
    rw [hmem1 pa.name]
    rintro (⟨_, hne⟩ | ⟨_, hemp⟩)
    · exact hne rfl
    · exact Hu pa.name Hpa hemp
  obtain ⟨s', hunsel, hp2, hv2, hrp2, hrlm2, hl2, ha2, hdeps2, hmem2, hnd2⟩ :=
    unselectLast_spec sm s1 s.sel.projects pa hp1 ds hfetch1 Hcnt1 Hpn1 hnd1
  refine ⟨s1, s', hsel, hunsel, hp2, hv2.trans hv1, hrp2.trans hrp1, hrlm2.trans hrlm1,
          hl2.trans hl1, ha2.trans ha1, ?_, ?_, hnd2⟩
  · intro n
    rw [hdeps2 n, hdeps1 n, List.length_append, depEdges_length]
    have : (getDependenciesOn s.sel n).length +
        ((ds.map ProjectDep.name).count n) - (ds.map ProjectDep.name).count n =
        (getDependenciesOn s.sel n).length := by omega
    rw [this]
    exact List.take_left _ _
  · intro m
    rw [hmem2 m]
    have hcond : ((getDependenciesOn s1.sel m).length = (ds.map ProjectDep.name).count m)
        ↔ getDependenciesOn s.sel m = [] := by
      rw [hdeps1 m, List.length_append, depEdges_length]
      constructor
      · intro h
        have : (getDependenciesOn s.sel m).length = 0 := by omega
        exact List.length_eq_zero.mp this
      · intro h
        rw [h]
        simp
    constructor
    · rintro ⟨hor, hnc⟩
      rcases hor with rfl | hmem
      · exact Hpa
      · rcases (hmem1 m).mp hmem with ⟨hm, _⟩ | ⟨hin, hemp⟩
        · exact hm
        · exact absurd ⟨hin, hcond.mpr hemp⟩ hnc
    · intro hmem
      by_cases hpa : m = pa.name
      · subst hpa
        refine ⟨Or.inl rfl, ?_⟩
        rintro ⟨hin, hlen⟩
        exact Hu pa.name hmem (hcond.mp hlen)
      · refine ⟨Or.inr ((hmem1 m).mpr (Or.inl ⟨hmem, hpa⟩)), ?_⟩
        rintro ⟨hin, hlen⟩
        exact Hu m hmem (hcond.mp hlen)

def sC4w : SolverState :=
  { latest := [],
    sel := ⟨[⟨"R", "v1"⟩], [("A", [⟨⟨"R", "v1"⟩, ⟨"A", .anyC⟩⟩])]⟩,
    unsel := ["A"], versions := [],
    rp := ⟨⟨"R", "v1"⟩, [⟨"A", .anyC⟩], [], none⟩, rlm := [], attempts := 0 }

theorem select_unselect_inverse_amended_witness :
    ∃ s1 s', selectVersion smC4 sC4w ⟨"A", "a1"⟩ = some s1 ∧
      unselectLast smC4 s1 = some s' ∧
      s'.sel.projects = sC4w.sel.projects ∧
      s'.versions = sC4w.versions ∧ s'.rp = sC4w.rp ∧ s'.rlm = sC4w.rlm ∧
      s'.latest = sC4w.latest ∧ s'.attempts = sC4w.attempts ∧
      (∀ n, getDependenciesOn s'.sel n = getDependenciesOn sC4w.sel n) ∧
      (∀ m, m ∈ s'.unsel ↔ m ∈ sC4w.unsel) ∧
      s'.unsel.Nodup :=
  select_unselect_inverse_amended smC4 sC4w ⟨"A", "a1"⟩ [⟨"B", .anyC⟩] rfl
    (by
      intro n hn
      have : n = "A" := by simpa [sC4w] using hn
      subst this
      decide)
    (by decide) (by decide)

/-! The between-steps invariant (§8): committed-atom bookkeeping, frontier
membership, and the stack pairing. -/

/-- All inbound edges the committed atoms contribute to a name, in commit
order then declaration order; the statement-level recomputation of `deps`. -/
def edgesFor (sm : SourceManager) (rp : ProjectInfo) (ps : List ProjectAtom)
    (n : ProjectName) : List Dependency :=
  ps.flatMap (fun p => depEdges p (declaredD sm rp p) n)

theorem edgesFor_nil (sm : SourceManager) (rp : ProjectInfo) (n : ProjectName) :
    edgesFor sm rp [] n = [] := rfl

theorem edgesFor_append (sm : SourceManager) (rp : ProjectInfo)
    (ps qs : List ProjectAtom) (n : ProjectName) :
    edgesFor sm rp (ps ++ qs) n = edgesFor sm rp ps n ++ edgesFor sm rp qs n := by
  unfold edgesFor
  rw [List.flatMap_append]

theorem edgesFor_singleton (sm : SourceManager) (rp : ProjectInfo)
    (p : ProjectAtom) (n : ProjectName) :
    edgesFor sm rp [p] n = depEdges p (declaredD sm rp p) n := by
  unfold edgesFor
  simp

theorem depEdges_ne_iff (pa : ProjectAtom) (ds : List ProjectDep) (n : ProjectName) :
    depEdges pa ds n ≠ [] ↔ ∃ d ∈ ds, d.name = n := by
  unfold depEdges
  simp [List.filter_eq_nil_iff]

theorem edgesFor_cons (sm : SourceManager) (rp : ProjectInfo) (p : ProjectAtom)
    (rest : List ProjectAtom) (n : ProjectName) :
    edgesFor sm rp (p :: rest) n =
      depEdges p (declaredD sm rp p) n ++ edgesFor sm rp rest n := rfl

theorem edgesFor_ne_iff (sm : SourceManager) (rp : ProjectInfo) (n : ProjectName) :
    ∀ ps : List ProjectAtom,
    edgesFor sm rp ps n ≠ [] ↔ ∃ p ∈ ps, ∃ d ∈ declaredD sm rp p, d.name = n := by
  intro ps
  induction ps with
  | nil => simp [edgesFor_nil]
  | cons p rest ih =>
    rw [edgesFor_cons]
    constructor
    · intro h
      by_cases h1 : depEdges p (declaredD sm rp p) n = []
      · have h2 : edgesFor sm rp rest n ≠ [] := fun h2 => h (by rw [h1, h2]; rfl)
        obtain ⟨q, hq, d, hd, hdn⟩ := ih.mp h2
        exact ⟨q, List.mem_cons_of_mem p hq, d, hd, hdn⟩
      · obtain ⟨d, hd, hdn⟩ := (depEdges_ne_iff p _ n).mp h1
        exact ⟨p, List.mem_cons_self p rest, d, hd, hdn⟩
    · rintro ⟨q, hq, d, hd, hdn⟩ hc
      rw [List.append_eq_nil] at hc
      rcases List.mem_cons.mp hq with rfl | hq'
      · exact (depEdges_ne_iff q _ n).mpr ⟨d, hd, hdn⟩ hc.1
      · exact ih.mpr ⟨q, hq', d, hd, hdn⟩ hc.2

theorem snoc_inj {α : Type} {l1 l2 : List α} {x y : α}
    (h : l1 ++ [x] = l2 ++ [y]) : l1 = l2 ∧ x = y := by
  have h2 := congrArg List.reverse h
  simp only [List.reverse_append, List.reverse_cons, List.reverse_nil,
    List.nil_append, List.singleton_append] at h2
  injection h2 with ha hb
  exact ⟨by simpa using congrArg List.reverse hb, ha⟩

theorem head?_append_left {α : Type} {l1 : List α} (l2 : List α) (h : l1 ≠ []) :
    (l1 ++ l2).head? = l1.head? := by
  cases l1 with
  | nil => exact absurd rfl h
  | cons a t => rfl

theorem tail_append_left {α : Type} {l1 : List α} (l2 : List α) (h : l1 ≠ []) :
    (l1 ++ l2).tail = l1.tail ++ l2 := by
  cases l1 with
  | nil => exact absurd rfl h
  | cons a t => rfl

/-- The invariant tying selection, deps and frontier together, less the
queue-stack pairing. -/
def InvCore (sm : SourceManager) (s : SolverState) : Prop :=
  s.sel.projects.head? = some s.rp.pa ∧
  (s.sel.projects.map ProjectAtom.name).Nodup ∧
  (∀ n, getDependenciesOn s.sel n = edgesFor sm s.rp s.sel.projects n) ∧
  (∀ n, n ∈ s.unsel ↔
    (getDependenciesOn s.sel n ≠ [] ∧ n ∉ s.sel.projects.map ProjectAtom.name)) ∧
  s.unsel.Nodup ∧
  (∀ pre x post, s.sel.projects = pre ++ x :: post → pre ≠ [] →
    ∃ p ∈ pre, ∃ d ∈ declaredD sm s.rp p, d.name = x.name) ∧
  (∀ pa d, d ∈ declaredD sm s.rp pa → d.name ≠ s.rp.pa.name)

/-- The full between-steps invariant: the version stack is paired in order
with the non-root committed atoms (§8; `len(versions) = len(projects) - 1`
follows by taking lengths). -/
def SolverInv (sm : SourceManager) (s : SolverState) : Prop :=
  InvCore sm s ∧
  s.versions.map VersionQueue.ref = s.sel.projects.tail.map ProjectAtom.name

theorem declaredD_of_fetch {sm : SourceManager} {rp : ProjectInfo} {pa : ProjectAtom}
    {ds : List ProjectDep} (h : getDependenciesOf sm rp pa = .ok ds) :
    declaredD sm rp pa = ds := by
  unfold declaredD
  rw [h]

theorem selectVersion_some_fetch {sm : SourceManager} {s : SolverState}
    {pa : ProjectAtom} {s' : SolverState} (h : selectVersion sm s pa = some s') :
    ∃ ds, getDependenciesOf sm s.rp pa = .ok ds := by
  unfold selectVersion at h
  dsimp only at h
  cases hf : getDependenciesOf sm s.rp pa with
  | error e => rw [hf] at h; exact Option.noConfusion h
  | ok ds => exact ⟨ds, rfl⟩

theorem invCore_fresh_not_selected (sm : SourceManager) (s : SolverState)
    (hinv : InvCore sm s) (m : ProjectName)
    (hemp : getDependenciesOn s.sel m = []) (hnr : m ≠ s.rp.pa.name) :
    m ∉ s.sel.projects.map ProjectAtom.name := by
  obtain ⟨hroot, hnodup, hdeps, hfront, hfnd, hintro, hnoroot⟩ := hinv
  intro hmem
  obtain ⟨x, hx, hxn⟩ := List.mem_map.mp hmem
  obtain ⟨pre, post, hdecomp⟩ := List.append_of_mem hx
  by_cases hpre : pre = []
  · subst hpre
    rw [hdecomp] at hroot
    simp at hroot
    exact hnr (by rw [← hxn, hroot, ← hroot])
  · obtain ⟨p, hp, d, hd, hdn⟩ := hintro pre x post hdecomp hpre
    have hpin : p ∈ s.sel.projects := by
      rw [hdecomp]
      exact List.mem_append_left _ hp
    have : edgesFor sm s.rp s.sel.projects m ≠ [] :=
      (edgesFor_ne_iff sm s.rp m s.sel.projects).mpr ⟨p, hpin, d, hd, hdn.trans hxn⟩
    exact this (by rw [← hdeps m]; exact hemp)

theorem select_invCore (sm : SourceManager) (s : SolverState) (pa : ProjectAtom)
    (hinv : InvCore sm s) (hpa : pa.name ∈ s.unsel) {s' : SolverState}
    (hsel : selectVersion sm s pa = some s') :
    InvCore sm s' ∧ s'.sel.projects = s.sel.projects ++ [pa] ∧
    s'.versions = s.versions ∧ s'.rp = s.rp ∧ s'.rlm = s.rlm ∧
    s'.latest = s.latest ∧ s'.attempts = s.attempts := by
  obtain ⟨ds, hfetch⟩ := selectVersion_some_fetch hsel
  obtain ⟨hroot, hnodup, hdeps, hfront, hfnd, hintro, hnoroot⟩ := hinv
  have Hu : ∀ n, n ∈ s.unsel → getDependenciesOn s.sel n ≠ [] :=
    fun n hn => ((hfront n).mp hn).1
  obtain ⟨s'', hsel'', hp, hv, hrp, hrlm, hl, ha, hdeps', hmem', hnd'⟩ :=
    selectVersion_spec sm s pa ds hfetch Hu hfnd
  rw [hsel''] at hsel
  injection hsel with hs
  subst hs
  have hddecl : declaredD sm s.rp pa = ds := declaredD_of_fetch hfetch
  have hpsne : s.sel.projects ≠ [] := by
    intro h
    rw [h] at hroot
    exact Option.noConfusion hroot
  have hpanotin : pa.name ∉ s.sel.projects.map ProjectAtom.name := ((hfront _).mp hpa).2
  have hedges2 : ∀ n, getDependenciesOn s''.sel n =
      edgesFor sm s.rp (s.sel.projects ++ [pa]) n := by
    intro n
    rw [hdeps' n, edgesFor_append, edgesFor_singleton, hddecl, hdeps n]
  refine ⟨⟨?_, ?_, ?_, ?_, hnd', ?_, ?_⟩, hp, hv, hrp, hrlm, hl, ha⟩
  · rw [hp, head?_append_left _ hpsne, hroot, hrp]
  · rw [hp, List.map_append]
    rw [List.nodup_append]
    refine ⟨hnodup, List.nodup_singleton _, ?_⟩
    intro a ha2 hb
    simp at hb
    subst hb
    exact hpanotin ha2
  · intro n
    rw [hedges2 n, hrp, hp]
  · intro n
    rw [hmem' n, hedges2 n, hp, List.map_append]
    constructor
    · rintro (⟨hin, hne⟩ | ⟨hin, hemp⟩)
      · obtain ⟨hne', hnotin⟩ := (hfront n).mp hin
        refine ⟨?_, ?_⟩
        · rw [edgesFor_append]
          intro hc
          rw [List.append_eq_nil] at hc
          exact hne' (by rw [hdeps n]; exact hc.1)
        · intro hc
          rcases List.mem_append.mp hc with h | h
          · exact hnotin h
          · simp at h
            exact hne h
      · have hnn : n ≠ s.rp.pa.name := by
          obtain ⟨d, hd, hdn⟩ := List.mem_map.mp hin
          rw [← hddecl] at hd
          exact hdn ▸ hnoroot pa d hd
        have hnotsel : n ∉ s.sel.projects.map ProjectAtom.name :=
          invCore_fresh_not_selected sm s
            ⟨hroot, hnodup, hdeps, hfront, hfnd, hintro, hnoroot⟩ n hemp hnn
        refine ⟨?_, ?_⟩
        · rw [edgesFor_append, edgesFor_singleton, hddecl]
          intro hc
          rw [List.append_eq_nil] at hc
          obtain ⟨d, hd, hdn⟩ := List.mem_map.mp hin
          exact (depEdges_ne_iff pa ds n).mpr ⟨d, hd, hdn⟩ hc.2
        · intro hc
          rcases List.mem_append.mp hc with h | h
          · exact hnotsel h
          · simp at h
            subst h
            exact Hu pa.name hpa hemp
    · rintro ⟨hne, hnotin⟩
      rw [edgesFor_append, edgesFor_singleton, hddecl] at hne
      have hnpa : ¬ n = pa.name := by
        intro h
        exact hnotin (by rw [List.mem_append]; right; simp [h])
      have hnotin' : n ∉ s.sel.projects.map ProjectAtom.name := by
        intro h
        exact hnotin (List.mem_append_left _ h)
      by_cases hemp : getDependenciesOn s.sel n = []
      · right
        refine ⟨?_, hemp⟩
        have : depEdges pa ds n ≠ [] := by
          intro hc
          rw [hdeps n] at hemp
          exact hne (by rw [hemp, hc]; rfl)
        obtain ⟨d, hd, hdn⟩ := (depEdges_ne_iff pa ds n).mp this
        exact List.mem_map.mpr ⟨d, hd, hdn⟩
      · left
        exact ⟨(hfront n).mpr ⟨hemp, hnotin'⟩, hnpa⟩
  · intro pre x post hdecomp hpre
    rw [hp] at hdecomp
    rw [hrp]
    by_cases hpost : post = []
    · subst hpost
      obtain ⟨hps, hx⟩ := snoc_inj hdecomp
      have hxe : pa.name = x.name := by rw [hx]
      have hef : edgesFor sm s.rp s.sel.projects pa.name ≠ [] := by
        rw [← hdeps pa.name]
        exact Hu pa.name hpa
      obtain ⟨p, hpin, d, hd, hdn⟩ := (edgesFor_ne_iff sm s.rp pa.name _).mp hef
      exact ⟨p, hps ▸ hpin, d, hd, hdn.trans hxe⟩
    · obtain ⟨post', lastE, hpost'⟩ :
          ∃ post' lastE, post = post' ++ [lastE] := by
        refine ⟨post.dropLast, post.getLast hpost, ?_⟩
        rw [List.dropLast_append_getLast hpost]
      subst hpost'
      have hre : s.sel.projects ++ [pa] = (pre ++ x :: post') ++ [lastE] := by
        rw [hdecomp]
        simp
      obtain ⟨hps, _⟩ := snoc_inj hre
      exact hintro pre x post' hps hpre
  · rw [hrp]
    exact hnoroot

theorem unselectLast_some_fetch {sm : SourceManager} {s : SolverState}
    {s' : SolverState} (h : unselectLast sm s = some s') :
    ∃ pa ds, s.sel.projects.getLast? = some pa ∧
      getDependenciesOf sm s.rp pa = .ok ds := by
  unfold unselectLast at h
  cases hl : s.sel.projects.getLast? with
  | none => rw [hl] at h; exact Option.noConfusion h
  | some pa =>
    rw [hl] at h
    dsimp only at h
    cases hf : getDependenciesOf sm s.rp pa with
    | error e => rw [hf] at h; exact Option.noConfusion h
    | ok ds => exact ⟨pa, ds, rfl, hf⟩

theorem unselect_invCore (sm : SourceManager) (s : SolverState)
    (ps : List ProjectAtom) (pa : ProjectAtom)
    (hproj : s.sel.projects = ps ++ [pa]) (hpsne : ps ≠ [])
    (hinv : InvCore sm s) {s' : SolverState} (hun : unselectLast sm s = some s') :
    InvCore sm s' ∧ s'.sel.projects = ps ∧ s'.versions = s.versions ∧
    s'.rp = s.rp ∧ s'.rlm = s.rlm ∧ s'.latest = s.latest ∧
    s'.attempts = s.attempts ∧ pa.name ∈ s'.unsel := by
  obtain ⟨pa0, ds, hlast, hfetch⟩ := unselectLast_some_fetch hun
  have hpa0 : pa0 = pa := by
    rw [hproj, List.getLast?_concat] at hlast
    exact (Option.some.inj hlast).symm
  subst hpa0
  obtain ⟨hroot, hnodup, hdeps, hfront, hfnd, hintro, hnoroot⟩ := hinv
  have hddecl : declaredD sm s.rp pa0 = ds := declaredD_of_fetch hfetch
  have hedges : ∀ n, getDependenciesOn s.sel n =
      edgesFor sm s.rp ps n ++ depEdges pa0 ds n := by
    intro n
    rw [hdeps n, hproj, edgesFor_append, edgesFor_singleton, hddecl]
  have Hcnt : ∀ n, (ds.map ProjectDep.name).count n ≤
      (getDependenciesOn s.sel n).length := by
    intro n
    rw [hedges n, List.length_append, depEdges_length]
    omega
  have hpain : pa0.name ∈ s.sel.projects.map ProjectAtom.name := by
    rw [hproj, List.map_append]
    exact List.mem_append_right _ (by simp)
  have Hpn : pa0.name ∉ s.unsel := fun h => ((hfront _).mp h).2 hpain
  obtain ⟨s'', hun'', hp, hv, hrp, hrlm, hl, ha, hdeps', hmem', hnd'⟩ :=
    unselectLast_spec sm s ps pa0 hproj ds hfetch Hcnt Hpn hfnd
  rw [hun''] at hun
  injection hun with hs
  subst hs
  have hpanotin : pa0.name ∉ ps.map ProjectAtom.name := by
    intro h
    rw [hproj, List.map_append] at hnodup
    rw [List.nodup_append] at hnodup
    exact hnodup.2.2 h (by simp)
  have hnodup' : (ps.map ProjectAtom.name).Nodup := by
    rw [hproj, List.map_append, List.nodup_append] at hnodup
    exact hnodup.1
  have hedges'' : ∀ n, getDependenciesOn s''.sel n = edgesFor sm s.rp ps n := by
    intro n
    rw [hdeps' n, hedges n, List.length_append, depEdges_length]
    have h1 : (edgesFor sm s.rp ps n).length + (ds.map ProjectDep.name).count n -
        (ds.map ProjectDep.name).count n = (edgesFor sm s.rp ps n).length := by omega
    rw [h1]
    exact List.take_left _ _
  have hepane : edgesFor sm s.rp ps pa0.name ≠ [] := by
    obtain ⟨p, hpin, d, hd, hdn⟩ := hintro ps pa0 [] (by rw [hproj]) hpsne
    exact (edgesFor_ne_iff sm s.rp pa0.name ps).mpr ⟨p, hpin, d, hd, hdn⟩
  have hcondiff : ∀ m, ((getDependenciesOn s.sel m).length =
      (ds.map ProjectDep.name).count m) ↔ edgesFor sm s.rp ps m = [] := by
    intro m
    rw [hedges m, List.length_append, depEdges_length]
    constructor
    · intro h
      exact List.length_eq_zero.mp (by omega)
    · intro h
      rw [h]
      simp
  have hfront'' : ∀ n, n ∈ s''.unsel ↔
      (getDependenciesOn s''.sel n ≠ [] ∧ n ∉ ps.map ProjectAtom.name) := by
    intro m
    rw [hmem' m, hedges'' m]
    constructor
    · rintro ⟨hor, hnc⟩
      constructor
      · rcases hor with rfl | hin
        · exact hepane
        · intro hemp
          obtain ⟨hne', hnotin⟩ := (hfront m).mp hin
          rw [hedges m] at hne'
          have hdep : depEdges pa0 ds m ≠ [] := by
            intro hc
            exact hne' (by rw [hemp, hc]; rfl)
          obtain ⟨d, hd, hdn⟩ := (depEdges_ne_iff pa0 ds m).mp hdep
          exact hnc ⟨List.mem_map.mpr ⟨d, hd, hdn⟩, (hcondiff m).mpr hemp⟩
      · rcases hor with rfl | hin
        · exact hpanotin
        · intro hmem
          exact ((hfront m).mp hin).2
            (by rw [hproj, List.map_append]; exact List.mem_append_left _ hmem)
    · rintro ⟨hne, hnotin⟩
      refine ⟨?_, ?_⟩
      · by_cases hpe : m = pa0.name
        · exact Or.inl hpe
        · refine Or.inr ((hfront m).mpr ⟨?_, ?_⟩)
          · rw [hedges m]
            intro hc
            rw [List.append_eq_nil] at hc
            exact hne hc.1
          · rw [hproj, List.map_append]
            intro hc
            rcases List.mem_append.mp hc with h | h
            · exact hnotin h
            · simp at h
              exact hpe h
      · rintro ⟨hin, hlen⟩
        exact hne ((hcondiff m).mp hlen)
  refine ⟨⟨?_, hp ▸ hnodup', ?_, ?_, hnd', ?_, ?_⟩, hp, hv, hrp, hrlm, hl, ha, ?_⟩
  · rw [hp, hrp, ← head?_append_left [pa0] hpsne, ← hproj]
    exact hroot
  · intro n
    rw [hedges'' n, hrp, hp]
  · intro n
    rw [hfront'' n, hp]
  · intro pre x post hdecomp hpre
    rw [hrp]
    refine hintro pre x (post ++ [pa0]) ?_ hpre
    rw [hproj, ← hp, hdecomp]
    simp
  · rw [hrp]
    exact hnoroot
  · rw [hfront'' pa0.name, hedges'' pa0.name]
    exact ⟨hepane, hpanotin⟩

theorem invCore_congr {sm : SourceManager} {s s' : SolverState}
    (hsel : s'.sel = s.sel) (hunsel : s'.unsel = s.unsel) (hrp : s'.rp = s.rp)
    (h : InvCore sm s) : InvCore sm s' := by
  unfold InvCore at h ⊢
  rw [hsel, hunsel, hrp]
  exact h

theorem map_ref_of_meta {vs vs' : List VersionQueue}
    (h : vs'.map queueMeta = vs.map queueMeta) :
    vs'.map VersionQueue.ref = vs.map VersionQueue.ref := by
  have h1 : ∀ l : List VersionQueue,
      l.map VersionQueue.ref = (l.map queueMeta).map Prod.fst := by
    intro l
    rw [List.map_map]
    rfl
  rw [h1, h1, h]

theorem newVersionQueue_ref {sm : SourceManager} {ref : ProjectName}
    {lockv : ProjectAtom} {q : VersionQueue}
    (h : newVersionQueue sm ref lockv = .ok q) : q.ref = ref ∧ q.fails = [] := by
  unfold newVersionQueue at h
  split at h
  · injection h with h
    subst h
    exact ⟨rfl, rfl⟩
  · cases hl : sm.listVersions ref with
    | error e => rw [hl] at h; exact Except.noConfusion h
    | ok vs =>
      rw [hl] at h
      injection h with h
      subst h
      exact ⟨rfl, rfl⟩

theorem advance_ref (sm : SourceManager) (q : VersionQueue)
    (reason : Option SolveError) : ((q.advance sm reason).1).ref = q.ref := by
  unfold VersionQueue.advance
  cases reason <;> (dsimp only; split)
  · split <;> rfl
  · rfl
  · split <;> rfl
  · rfl

theorem getLast?_map_ref {vs : List VersionQueue} {q : VersionQueue}
    (h : vs.getLast? = some q) :
    (vs.map VersionQueue.ref).getLast? = some q.ref := by
  induction vs with
  | nil => exact Option.noConfusion h
  | cons a t ih =>
    cases t with
    | nil =>
      simp at h
      subst h
      rfl
    | cons b u =>
      rw [List.getLast?_cons_cons] at h
      rw [List.map_cons, List.map_cons, List.getLast?_cons_cons, ← List.map_cons]
      exact ih h

/-- The seeded initial state of a solve (root committed, frontier primed)
satisfies the between-steps invariant, provided the solver value was fresh
(no leftover version stack) and no manifest in the universe declares a dep
on the root's name. -/
theorem seed_inv (sm : SourceManager) (σ : SolverState) (root : ProjectInfo)
    (up : List ProjectName) (hv0 : σ.versions = [])
    (hnr : ∀ pa d, d ∈ declaredD sm root pa → d.name ≠ root.pa.name)
    {s0 : SolverState} (hseed : seedState sm σ root up = some s0) :
    SolverInv sm s0 := by
  unfold seedState at hseed
  set sp := solvePrep σ root up with hsp
  have hrpp : sp.rp = root := rfl
  have hselp : sp.sel = ⟨[], []⟩ := rfl
  have hunselp : sp.unsel = [] := rfl
  obtain ⟨ds, hfetch⟩ := selectVersion_some_fetch hseed
  obtain ⟨s1, hsel1, hp, hv, hrp, hrlm, hl, ha, hdeps', hmem', hnd'⟩ :=
    selectVersion_spec sm sp sp.rp.pa ds hfetch
      (by rw [hunselp]; intro n hn; exact absurd hn (List.not_mem_nil n))
      (by rw [hunselp]; exact List.nodup_nil)
  rw [hsel1] at hseed
  injection hseed with hs
  subst hs
  have hddecl : declaredD sm root sp.rp.pa = ds := by
    rw [← hrpp]
    exact declaredD_of_fetch hfetch
  have hpemp : ∀ n, getDependenciesOn sp.sel n = [] := by
    intro n
    rw [hselp]
    rfl
  have hedges0 : ∀ n, getDependenciesOn s1.sel n =
      edgesFor sm root [root.pa] n := by
    intro n
    rw [hdeps' n, hpemp n, List.nil_append, edgesFor_singleton]
    rw [show sp.rp.pa = root.pa from rfl] at hddecl ⊢
    rw [hddecl]
  constructor
  · refine ⟨?_, ?_, ?_, ?_, hnd', ?_, ?_⟩
    · rw [hp, hselp, hrp, hrpp]
      rfl
    · rw [hp, hselp]
      simp
    · intro n
      rw [hedges0 n, hrp, hrpp, hp, hselp]
      rfl
    · intro n
      rw [hmem' n, hedges0 n, hp, hselp]
      simp only [List.nil_append, List.map_cons, List.map_nil]
      have hddecl2 : declaredD sm root root.pa = ds := hddecl
      constructor
      · rintro (⟨hin, _⟩ | ⟨hin, _⟩)
        · rw [hunselp] at hin
          exact absurd hin (List.not_mem_nil n)
        · obtain ⟨d, hd, hdn⟩ := List.mem_map.mp hin
          refine ⟨?_, ?_⟩
          · rw [edgesFor_singleton, hddecl2]
            exact (depEdges_ne_iff root.pa ds n).mpr ⟨d, hd, hdn⟩
          · intro hc
            simp at hc
            exact hnr root.pa d (by rw [hddecl2]; exact hd) (hdn.trans hc)
      · rintro ⟨hne, hnotin⟩
        right
        rw [edgesFor_singleton, hddecl2] at hne
        refine ⟨?_, hpemp n⟩
        obtain ⟨d, hd, hdn⟩ := (depEdges_ne_iff root.pa ds n).mp hne
        exact List.mem_map.mpr ⟨d, hd, hdn⟩
    · intro pre x post hdecomp hpre
      rw [hp, hselp] at hdecomp
      exfalso
      have hlenx := congrArg List.length hdecomp
      simp at hlenx
      cases pre with
      | nil => exact hpre rfl
      | cons a t =>
        rw [List.length_cons] at hlenx
        omega
    · rw [hrp, hrpp]
      exact hnr
  · rw [hv, hp, hselp]
    show (solvePrep σ root up).versions.map VersionQueue.ref = _
    rw [show (solvePrep σ root up).versions = σ.versions from rfl, hv0]
    rfl

theorem findValidVersion_frame {sm : SourceManager} {fuel : Nat} {s : SolverState}
    {q : VersionQueue} {s' : SolverState} {q' : VersionQueue}
    {res : Option SolveError}
    (h : findValidVersion sm fuel s q = some (s', q', res)) :
    baseFrame s s' ∧ s'.versions.map queueMeta = s.versions.map queueMeta ∧
    q'.ref = q.ref := by
  unfold findValidVersion at h
  cases hcur : q.current with
  | none => rw [hcur] at h; exact Option.noConfusion h
  | some cur =>
    rw [hcur] at h
    dsimp only at h
    cases hwalk : fvvWalkD sm fuel s q with
    | none => rw [hwalk] at h; exact Option.noConfusion h
    | some tr =>
      obtain ⟨s1, q1, b⟩ := tr
      rw [hwalk] at h
      obtain ⟨⟨hb, hmeta⟩, href, -⟩ := fvvWalkD_spec sm fuel s q s1 q1 b hwalk
      cases b with
      | true =>
        dsimp only at h
        injection h with h
        injection h with h1 h2
        injection h2 with h2 h3
        subst h1
        subst h2
        exact ⟨hb, hmeta, href⟩
      | false =>
        dsimp only at h
        cases hdep : getDependenciesOn s1.sel q.ref with
        | nil => rw [hdep] at h; exact Option.noConfusion h
        | cons d rest =>
          rw [hdep] at h
          dsimp only at h
          injection h with h
          injection h with h1 h2
          injection h2 with h2 h3
          subst h2
          obtain ⟨hb2, hmeta2⟩ := solverFail_frame s1 d.depender.name
          rw [← h1]
          exact ⟨baseFrame_trans hb hb2, hmeta2.trans hmeta, href⟩

theorem createVersionQueue_frame {sm : SourceManager} {fuel : Nat} {s : SolverState}
    {ref : ProjectName} {s1 : SolverState} {r : Except SolveError VersionQueue}
    (h : createVersionQueue sm fuel s ref = some (s1, r)) :
    baseFrame s s1 ∧ s1.versions.map queueMeta = s.versions.map queueMeta ∧
    (∀ q, r = .ok q → q.ref = ref) := by
  unfold createVersionQueue at h
  split at h
  · cases hn : newVersionQueue sm ref nilpa with
    | error e =>
      rw [hn] at h
      injection h with h
      injection h with h1 h2
      subst h1
      refine ⟨baseFrame_refl s, rfl, ?_⟩
      intro q hq
      rw [← h2] at hq
      exact Except.noConfusion hq
    | ok q0 =>
      rw [hn] at h
      injection h with h
      injection h with h1 h2
      subst h1
      refine ⟨baseFrame_refl s, rfl, ?_⟩
      intro q hq
      rw [← h2] at hq
      injection hq with hq
      subst hq
      exact (newVersionQueue_ref hn).1
  · cases hre : sm.repoExists ref with
    | error e =>
      rw [hre] at h
      injection h with h
      injection h with h1 h2
      subst h1
      refine ⟨baseFrame_refl s, rfl, ?_⟩
      intro q hq
      rw [← h2] at hq
      exact Except.noConfusion hq
    | ok rexists =>
      rw [hre] at h
      dsimp only at h
      split at h
      · exact Option.noConfusion h
      · injection h with h
        injection h with h1 h2
        subst h1
        refine ⟨baseFrame_refl s, rfl, ?_⟩
        intro q hq
        rw [← h2] at hq
        exact Except.noConfusion hq
      · cases hn : newVersionQueue sm ref (getLockVersionIfValid sm s ref) with
        | error e =>
          rw [hn] at h
          injection h with h
          injection h with h1 h2
          subst h1
          refine ⟨baseFrame_refl s, rfl, ?_⟩
          intro q hq
          rw [← h2] at hq
          exact Except.noConfusion hq
        | ok q0 =>
          rw [hn] at h
          dsimp only at h
          cases hfv : findValidVersion sm fuel s q0 with
          | none => rw [hfv] at h; exact Option.noConfusion h
          | some tr =>
            obtain ⟨s', q', res⟩ := tr
            rw [hfv] at h
            obtain ⟨hb, hmeta, href⟩ := findValidVersion_frame hfv
            cases res with
            | none =>
              dsimp only at h
              injection h with h
              injection h with h1 h2
              subst h1
              refine ⟨hb, hmeta, ?_⟩
              intro q hq
              rw [← h2] at hq
              injection hq with hq
              subst hq
              exact href.trans (newVersionQueue_ref hn).1
            | some e =>
              dsimp only at h
              injection h with h
              injection h with h1 h2
              subst h1
              refine ⟨hb, hmeta, ?_⟩
              intro q hq
              rw [← h2] at hq
              exact Except.noConfusion hq

theorem setTop_map_ref {s : SolverState} {qcur q' : VersionQueue}
    (hlast : s.versions.getLast? = some qcur) (href : q'.ref = qcur.ref) :
    (setTop s q').versions.map VersionQueue.ref =
      s.versions.map VersionQueue.ref := by
  unfold setTop
  dsimp only
  have hne : s.versions ≠ [] := by
    intro h
    rw [h] at hlast
    exact Option.noConfusion hlast
  conv_rhs => rw [← List.dropLast_append_getLast hne]
  rw [List.map_append, List.map_append]
  congr 1
  have heq : qcur = s.versions.getLast hne := by
    have h2 := List.getLast?_eq_getLast s.versions hne
    rw [h2] at hlast
    exact (Option.some.inj hlast).symm
  simp [href, heq]

theorem fvvWalkT_frame (sm : SourceManager) :
    ∀ (fuel : Nat) (s : SolverState) (s' : SolverState) (b : Bool),
    fvvWalkT sm fuel s = some (s', b) →
    baseFrame s s' ∧
    s'.versions.map VersionQueue.ref = s.versions.map VersionQueue.ref := by
  intro fuel
  induction fuel with
  | zero => intro s s' b h; exact Option.noConfusion h
  | succ fuel ih =>
    intro s s' b h
    unfold fvvWalkT at h
    cases hlast : s.versions.getLast? with
    | none => rw [hlast] at h; exact Option.noConfusion h
    | some q =>
      rw [hlast] at h
      dsimp only at h
      cases hcur : q.current with
      | none => rw [hcur] at h; exact Option.noConfusion h
      | some cur =>
        rw [hcur] at h
        dsimp only at h
        cases hsat : satisfiable sm s ⟨q.ref, cur⟩ with
        | none => rw [hsat] at h; exact Option.noConfusion h
        | some pr =>
          obtain ⟨s1, e1⟩ := pr
          obtain ⟨hb1, hmeta1⟩ := satisfiable_frame hsat
          have href1 : s1.versions.map VersionQueue.ref =
              s.versions.map VersionQueue.ref := map_ref_of_meta hmeta1
          cases e1 with
          | none =>
            rw [hsat] at h
            dsimp only at h
            injection h with h
            injection h with h1 h2
            subst h1
            exact ⟨hb1, href1⟩
          | some err =>
            rw [hsat] at h
            dsimp only at h
            cases hlast2 : s1.versions.getLast? with
            | none => rw [hlast2] at h; exact Option.noConfusion h
            | some qcur =>
              rw [hlast2] at h
              dsimp only at h
              cases hadv : qcur.advance sm (some err) with
              | mk q' rerr =>
                rw [hadv] at h
                have hrefadv : q'.ref = qcur.ref := by
                  have := advance_ref sm qcur (some err)
                  rw [hadv] at this
                  exact this
                have hsettop : (setTop s1 q').versions.map VersionQueue.ref =
                    s.versions.map VersionQueue.ref :=
                  (setTop_map_ref hlast2 hrefadv).trans href1
                have hbset : baseFrame s (setTop s1 q') := hb1
                cases rerr with
                | some msg =>
                  dsimp only at h
                  injection h with h
                  injection h with h1 h2
                  subst h1
                  exact ⟨hbset, hsettop⟩
                | none =>
                  dsimp only at h
                  by_cases hex : q'.isExhausted = true
                  · rw [if_pos hex] at h
                    injection h with h
                    injection h with h1 h2
                    subst h1
                    exact ⟨hbset, hsettop⟩
                  · rw [if_neg hex] at h
                    obtain ⟨hb2, href2⟩ := ih (setTop s1 q') s' b h
                    exact ⟨baseFrame_trans hbset hb2, href2.trans hsettop⟩

theorem findValidVersionT_frame {sm : SourceManager} {fuel : Nat} {s : SolverState}
    {s' : SolverState} {res : Option SolveError}
    (h : findValidVersionT sm fuel s = some (s', res)) :
    baseFrame s s' ∧
    s'.versions.map VersionQueue.ref = s.versions.map VersionQueue.ref := by
  unfold findValidVersionT at h
  cases hlast : s.versions.getLast? with
  | none => rw [hlast] at h; exact Option.noConfusion h
  | some q0 =>
    rw [hlast] at h
    dsimp only at h
    cases hcur : q0.current with
    | none => rw [hcur] at h; exact Option.noConfusion h
    | some cur =>
      rw [hcur] at h
      dsimp only at h
      cases hwalk : fvvWalkT sm fuel s with
      | none => rw [hwalk] at h; exact Option.noConfusion h
      | some tr =>
        obtain ⟨s1, b⟩ := tr
        rw [hwalk] at h
        obtain ⟨hb1, href1⟩ := fvvWalkT_frame sm fuel s s1 b hwalk
        cases b with
        | true =>
          dsimp only at h
          injection h with h
          injection h with h1 h2
          subst h1
          exact ⟨hb1, href1⟩
        | false =>
          dsimp only at h
          cases hlast2 : s1.versions.getLast? with
          | none => rw [hlast2] at h; exact Option.noConfusion h
          | some q' =>
            rw [hlast2] at h
            dsimp only at h
            cases hdep : getDependenciesOn s1.sel q0.ref with
            | nil => rw [hdep] at h; exact Option.noConfusion h
            | cons d rest =>
              rw [hdep] at h
              dsimp only at h
              injection h with h
              injection h with h1 h2
              subst h1
              obtain ⟨hb2, hmeta2⟩ := solverFail_frame s1 d.depender.name
              exact ⟨baseFrame_trans hb1 hb2,
                     (map_ref_of_meta hmeta2).trans href1⟩

theorem inv_decomp (sm : SourceManager) (s : SolverState) (hinv : SolverInv sm s)
    (q : VersionQueue) (hlast : s.versions.getLast? = some q) :
    ∃ ps pa, s.sel.projects = ps ++ [pa] ∧ ps ≠ [] ∧ q.ref = pa.name ∧
      s.versions.dropLast.map VersionQueue.ref = ps.tail.map ProjectAtom.name := by
  obtain ⟨hcore, hpair⟩ := hinv
  have hvne : s.versions ≠ [] := by
    intro h
    rw [h] at hlast
    exact Option.noConfusion hlast
  have hpne : s.sel.projects ≠ [] := by
    intro h
    have h1 := hcore.1
    rw [h] at h1
    exact Option.noConfusion h1
  have hqlast : s.versions.getLast hvne = q := by
    have h2 := List.getLast?_eq_getLast s.versions hvne
    rw [h2] at hlast
    exact Option.some.inj hlast
  refine ⟨s.sel.projects.dropLast, s.sel.projects.getLast hpne,
          (List.dropLast_append_getLast hpne).symm, ?_, ?_, ?_⟩
  all_goals {
    have hvdecomp : s.versions = s.versions.dropLast ++ [q] := by
      conv_lhs => rw [← List.dropLast_append_getLast hvne]
      rw [hqlast]
    have hpdecomp : s.sel.projects =
        s.sel.projects.dropLast ++ [s.sel.projects.getLast hpne] :=
      (List.dropLast_append_getLast hpne).symm
    have hlen : s.versions.length = s.sel.projects.length - 1 := by
      have := congrArg List.length hpair
      simpa using this
    have hdne : s.sel.projects.dropLast ≠ [] := by
      intro h
      have h1 := congrArg List.length hpdecomp
      rw [h] at h1
      simp at h1
      have h2 := List.length_pos.mpr hvne
      omega
    rw [hvdecomp, hpdecomp] at hpair
    rw [List.map_append, tail_append_left _ hdne, List.map_append] at hpair
    first
    | exact hdne
    | exact (snoc_inj hpair).2
    | exact (snoc_inj hpair).1
  }

theorem btInner_inv (sm : SourceManager) :
    ∀ (fuel : Nat) (s : SolverState) (r : SolverState ⊕ SolverState),
    SolverInv sm s → btInner sm fuel s = some r →
    ∀ s', (r = .inl s' ∨ r = .inr s') → SolverInv sm s' := by
  intro fuel
  induction fuel with
  | zero => intro s r hinv h; exact Option.noConfusion h
  | succ fuel ih =>
    intro s r hinv h
    unfold btInner at h
    cases hlast : s.versions.getLast? with
    | none =>
      rw [hlast] at h
      injection h with h
      subst h
      intro s' hs'
      rcases hs' with hs' | hs' <;>
        first
          | (injection hs' with hs'; subst hs'; exact hinv)
          | exact Sum.noConfusion hs'
    | some q =>
      rw [hlast] at h
      dsimp only at h
      by_cases hf : q.failed = true
      · rw [if_pos hf] at h
        injection h with h
        subst h
        intro s' hs'
        rcases hs' with hs' | hs' <;>
          first
            | (injection hs' with hs'; subst hs'; exact hinv)
            | exact Sum.noConfusion hs'
      · rw [if_neg hf] at h
        obtain ⟨ps, pa, hproj, hpsne, hqref, hmapdrop⟩ := inv_decomp sm s hinv q hlast
        cases hun : unselectLast sm { s with versions := s.versions.dropLast } with
        | none => rw [hun] at h; exact Option.noConfusion h
        | some s2 =>
          rw [hun] at h
          have hcorepop : InvCore sm { s with versions := s.versions.dropLast } :=
            invCore_congr rfl rfl rfl hinv.1
          obtain ⟨hcore2, hp2, hv2, hrp2, -, -, -, -⟩ :=
            unselect_invCore sm { s with versions := s.versions.dropLast } ps pa
              hproj hpsne hcorepop hun
          have hinv2 : SolverInv sm s2 := by
            refine ⟨hcore2, ?_⟩
            rw [hv2, hp2]
            show s.versions.dropLast.map VersionQueue.ref = _
            rw [hmapdrop]
          exact ih s2 r hinv2 h

theorem btOuter_inv (sm : SourceManager) :
    ∀ (fuel : Nat) (s : SolverState) (out : SolverState × Bool),
    SolverInv sm s → btOuter sm fuel s = some out → SolverInv sm out.1 := by
  intro fuel
  induction fuel with
  | zero => intro s out hinv h; exact Option.noConfusion h
  | succ fuel ih =>
    intro s out hinv h
    unfold btOuter at h
    cases hbi : btInner sm (fuel + 1) s with
    | none => rw [hbi] at h; exact Option.noConfusion h
    | some r =>
      rw [hbi] at h
      cases r with
      | inl sa =>
        dsimp only at h
        injection h with h
        subst h
        exact btInner_inv sm (fuel + 1) s (.inl sa) hinv hbi sa (Or.inl rfl)
      | inr s1 =>
        dsimp only at h
        have hinv1 : SolverInv sm s1 :=
          btInner_inv sm (fuel + 1) s (.inr s1) hinv hbi s1 (Or.inr rfl)
        cases hlast : s1.versions.getLast? with
        | none => rw [hlast] at h; exact Option.noConfusion h
        | some q =>
          rw [hlast] at h
          dsimp only at h
          cases hun : unselectLast sm s1 with
          | none => rw [hun] at h; exact Option.noConfusion h
          | some s2 =>
            rw [hun] at h
            dsimp only at h
            obtain ⟨ps, pa, hproj, hpsne, hqref, hmapdrop⟩ :=
              inv_decomp sm s1 hinv1 q hlast
            obtain ⟨hcore2, hp2, hv2, hrp2, hrlm2, hlat2, hat2, hmem2⟩ :=
              unselect_invCore sm s1 ps pa hproj hpsne hinv1.1 hun
            have hmap2 : s2.versions.map VersionQueue.ref =
                ps.tail.map ProjectAtom.name ++ [pa.name] := by
              rw [hv2, hinv1.2, hproj, tail_append_left _ hpsne, List.map_append]
              rfl
            cases hadv : q.advance sm none with
            | mk q' oerr =>
              rw [hadv] at h
              cases oerr with
              | some e =>
                dsimp only at h
                refine ih { s2 with versions := s2.versions.dropLast } out ⟨invCore_congr rfl rfl rfl hcore2, ?_⟩ h
                show s2.versions.dropLast.map VersionQueue.ref =
                  s2.sel.projects.tail.map ProjectAtom.name
                rw [hv2, hmapdrop, hp2]
              | none =>
                dsimp only at h
                by_cases hex : q'.isExhausted = true
                · rw [if_pos hex] at h
                  refine ih { s2 with versions := s2.versions.dropLast } out ⟨invCore_congr rfl rfl rfl hcore2, ?_⟩ h
                  show s2.versions.dropLast.map VersionQueue.ref =
                    s2.sel.projects.tail.map ProjectAtom.name
                  rw [hv2, hmapdrop, hp2]
                · rw [if_neg hex] at h
                  cases hfvt : findValidVersionT sm (fuel + 1) (setTop s2 q') with
                  | none => rw [hfvt] at h; exact Option.noConfusion h
                  | some p4 =>
                    obtain ⟨s4, res⟩ := p4
                    rw [hfvt] at h
                    obtain ⟨hbf4, hmr4⟩ := findValidVersionT_frame hfvt
                    have href : q'.ref = q.ref := by
                      have h1 := advance_ref sm q none
                      rw [hadv] at h1
                      exact h1
                    have hlast2 : s2.versions.getLast? = some q := by
                      rw [hv2]; exact hlast
                    have hmap4 : s4.versions.map VersionQueue.ref =
                        ps.tail.map ProjectAtom.name ++ [pa.name] := by
                      rw [hmr4, setTop_map_ref hlast2 href, hmap2]
                    have hsel4 : s4.sel = s2.sel := hbf4.1
                    have huns4 : s4.unsel = s2.unsel := hbf4.2.1
                    have hrp4 : s4.rp = s2.rp := hbf4.2.2.1
                    have hcore4 : InvCore sm s4 := invCore_congr hsel4 huns4 hrp4 hcore2
                    cases res with
                    | some e =>
                      dsimp only at h
                      refine ih { s4 with versions := s4.versions.dropLast } out ⟨invCore_congr rfl rfl rfl hcore4, ?_⟩ h
                      show s4.versions.dropLast.map VersionQueue.ref =
                        s4.sel.projects.tail.map ProjectAtom.name
                      rw [List.map_dropLast, hmap4, hsel4, hp2]
                      simp
                    | none =>
                      dsimp only at h
                      cases hlast4 : s4.versions.getLast? with
                      | none => rw [hlast4] at h; exact Option.noConfusion h
                      | some qf =>
                        rw [hlast4] at h
                        dsimp only at h
                        have hqf : qf.ref = pa.name := by
                          have h1 := getLast?_map_ref hlast4
                          rw [hmap4, List.getLast?_concat] at h1
                          exact (Option.some.inj h1).symm
                        cases hcur : qf.current with
                        | none => rw [hcur] at h; exact Option.noConfusion h
                        | some v =>
                          rw [hcur] at h
                          dsimp only at h
                          cases hsel5 : selectVersion sm s4 ⟨qf.ref, v⟩ with
                          | none => rw [hsel5] at h; exact Option.noConfusion h
                          | some s5 =>
                            rw [hsel5] at h
                            dsimp only at h
                            injection h with h
                            subst h
                            have hmem4 : (⟨qf.ref, v⟩ : ProjectAtom).name ∈ s4.unsel := by
                              show qf.ref ∈ s4.unsel
                              rw [hqf, huns4]
                              exact hmem2
                            obtain ⟨hcore5, hp5, hv5, -, -, -, -⟩ :=
                              select_invCore sm s4 ⟨qf.ref, v⟩ hcore4 hmem4 hsel5
                            refine ⟨invCore_congr rfl rfl rfl hcore5, ?_⟩
                            show s5.versions.map VersionQueue.ref =
                              s5.sel.projects.tail.map ProjectAtom.name
                            rw [hv5, hmap4, hp5, hsel4, hp2,
                                tail_append_left _ hpsne, List.map_append]
                            simp [hqf]

theorem backtrack_inv (sm : SourceManager) (fuel : Nat) (s : SolverState)
    (out : SolverState × Bool) (hinv : SolverInv sm s)
    (h : backtrack sm fuel s = some out) : SolverInv sm out.1 := by
  unfold backtrack at h
  by_cases he : s.versions.isEmpty = true
  · rw [if_pos he] at h
    injection h with h
    subst h
    exact hinv
  · rw [if_neg he] at h
    exact btOuter_inv sm fuel s out hinv h

theorem step_inv {sm : SourceManager} {s s' : SolverState}
    (hinv : SolverInv sm s) (hstep : Step sm s s') : SolverInv sm s' := by
  cases hstep with
  | commit fuel ref s1 q v s2 hnext hcq hcur hsel =>
    obtain ⟨hbf1, hmeta1, hok⟩ := createVersionQueue_frame hcq
    have hqref : q.ref = ref := hok q rfl
    have hmr1 : s1.versions.map VersionQueue.ref = s.versions.map VersionQueue.ref :=
      map_ref_of_meta hmeta1
    have hcore1 : InvCore sm s1 := invCore_congr hbf1.1 hbf1.2.1 hbf1.2.2.1 hinv.1
    have hrefmem : ref ∈ s.unsel := by
      unfold nextUnselected at hnext
      cases hu : s.unsel with
      | nil => rw [hu] at hnext; exact Option.noConfusion hnext
      | cons a t =>
        rw [hu] at hnext
        injection hnext with hnext
        subst hnext
        exact List.mem_cons_self _ _
    have hmem1 : (⟨q.ref, v⟩ : ProjectAtom).name ∈ s1.unsel := by
      show q.ref ∈ s1.unsel
      rw [hqref, hbf1.2.1]
      exact hrefmem
    obtain ⟨hcore2, hp2, hv2, -, -, -, -⟩ :=
      select_invCore sm s1 ⟨q.ref, v⟩ hcore1 hmem1 hsel
    have hpne : s.sel.projects ≠ [] := by
      intro hh
      have h1 := hinv.1.1
      rw [hh] at h1
      exact Option.noConfusion h1
    refine ⟨invCore_congr rfl rfl rfl hcore2, ?_⟩
    show (s2.versions ++ [q]).map VersionQueue.ref =
      s2.sel.projects.tail.map ProjectAtom.name
    rw [List.map_append, hv2, hmr1, hinv.2, hp2, hbf1.1,
        tail_append_left _ hpne, List.map_append]
    simp [hqref]
  | bt fuel fuel' ref s1 e s2 b hnext hcq hbt =>
    obtain ⟨hbf1, hmeta1, -⟩ := createVersionQueue_frame hcq
    have hmr1 : s1.versions.map VersionQueue.ref = s.versions.map VersionQueue.ref :=
      map_ref_of_meta hmeta1
    have hinv1 : SolverInv sm s1 := by
      refine ⟨invCore_congr hbf1.1 hbf1.2.1 hbf1.2.2.1 hinv.1, ?_⟩
      rw [hmr1, hbf1.1]
      exact hinv.2
    exact backtrack_inv sm fuel' s1 (s', b) hinv1 hbt

theorem reach_inv {sm : SourceManager} {s0 s : SolverState}
    (h0 : SolverInv sm s0) (h : Reach sm s0 s) : SolverInv sm s := by
  induction h with
  | refl => exact h0
  | tail hr hstep ih => exact step_inv ih hstep

def smC5 : SourceManager :=
  ⟨fun n => .ok (n = "A" || n = "B"),
   fun _ => .ok false,
   fun n => if n = "B" then .ok ["b2", "b1", "b0"]
            else if n = "A" then .ok ["a3", "a2"] else .ok [],
   fun pa =>
     if pa = ⟨"R", "v1"⟩ then .ok ⟨pa, [⟨"B", .anyC⟩], [], none⟩
     else if pa = ⟨"B", "b2"⟩ then .ok ⟨pa, [⟨"A", .among ["a2"]⟩], [], none⟩
     else if pa = ⟨"B", "b1"⟩ then .ok ⟨pa, [⟨"A", .among ["a1"]⟩], [], none⟩
     else if pa = ⟨"A", "a2"⟩ then .ok ⟨pa, [⟨"D", .anyC⟩], [], none⟩
     else if pa = ⟨"A", "a3"⟩ then .ok ⟨pa, [], [], none⟩
     else .error "unknown"⟩

def rootC5 : ProjectInfo := ⟨⟨"R", "v1"⟩, [⟨"B", .anyC⟩], [], none⟩

def c5s0 : SolverState := (seedState smC5 NewSolver rootC5 []).getD NewSolver


def c5qB : VersionQueue := ⟨"B", ["b2", "b1", "b0"], [], false, false, true⟩

def c5s1 : SolverState :=
  { ((selectVersion smC5 c5s0 ⟨"B", "b2"⟩).getD NewSolver) with
    versions := ((selectVersion smC5 c5s0 ⟨"B", "b2"⟩).getD NewSolver).versions ++ [c5qB] }


def c5vna : SolveError :=
  .versionNotAllowed ⟨"A", "a3"⟩
    [⟨⟨"B", "b2"⟩, ⟨"A", .among ["a2"]⟩⟩] (.among ["a2"])

def c5qA : VersionQueue := ⟨"A", ["a2"], [c5vna], false, false, true⟩

def stOf (x : Option (SolverState × Except SolveError VersionQueue)) : SolverState :=
  match x with
  | some (s, _) => s
  | none => NewSolver

def c5s1f : SolverState := stOf (createVersionQueue smC5 10 c5s1 "A")

def c5s2 : SolverState :=
  { ((selectVersion smC5 c5s1f ⟨"A", "a2"⟩).getD NewSolver) with
    versions := ((selectVersion smC5 c5s1f ⟨"A", "a2"⟩).getD NewSolver).versions ++ [c5qA] }


def c5send : SolverState := ((backtrack smC5 10 c5s2).getD (NewSolver, false)).1

/-- Reachability of the post-backtrack state from the seeded state: commit
`B@b2`, commit `A@a2` (which marks B's queue failed while rejecting `a3`),
then fail on `D` and backtrack to `B@b1`. -/
theorem c5_reach : Reach smC5 c5s0 c5send := by
  have step1 : Step smC5 c5s0 c5s1 :=
    Step.commit c5s0 10 "B" c5s0 c5qB "b2"
      ((selectVersion smC5 c5s0 ⟨"B", "b2"⟩).getD NewSolver) rfl rfl rfl rfl
  have step2 : Step smC5 c5s1 c5s2 :=
    Step.commit c5s1 10 "A" c5s1f c5qA "a2"
      ((selectVersion smC5 c5s1f ⟨"A", "a2"⟩).getD NewSolver) rfl rfl rfl rfl
  have step3 : Step smC5 c5s2 c5send :=
    Step.bt c5s2 10 10 "D" c5s2 (.cannotResolve "D") c5send true rfl rfl rfl
  exact Relation.ReflTransGen.tail
    (Relation.ReflTransGen.tail
      (Relation.ReflTransGen.tail Relation.ReflTransGen.refl step1) step2) step3

def keysOf (sel : Selection) : List ProjectName := sel.deps.map Prod.fst

/-- C5 (refutation): after the backtrack in the reachable trace above, the
name `D` is a key of the `deps` mapping but is neither committed nor on the
unselected frontier — `unselectLast` empties an edge list without deleting
the key, so frontier membership is not `keys(deps) \ names(projects)`. -/
theorem frontier_keys_counterexample :
    seedState smC5 NewSolver rootC5 [] = some c5s0 ∧
    Reach smC5 c5s0 c5send ∧
    "D" ∈ keysOf c5send.sel ∧
    "D" ∉ c5send.sel.projects.map ProjectAtom.name ∧
    "D" ∉ c5send.unsel :=
  ⟨rfl, c5_reach,
   by rw [show keysOf c5send.sel = ["B", "A", "D"] from rfl]; decide,
   by rw [show c5send.sel.projects.map ProjectAtom.name = ["R", "B"] from rfl]; decide,
   by rw [show c5send.unsel = ["A"] from rfl]; decide⟩

/-- C5 (amended): in every state reachable between driver steps from a freshly
seeded solver, the frontier holds exactly the names whose recorded inbound-edge
list is non-empty and that are not the name of a committed atom; keys of
`deps` whose edge list has been emptied by `unselectLast` are excluded. -/
theorem frontier_membership_amended (sm : SourceManager) (σ : SolverState)
    (root : ProjectInfo) (up : List ProjectName) (s0 s : SolverState)
    (hv0 : σ.versions = [])
    (hnr : ∀ pa d, d ∈ declaredD sm root pa → d.name ≠ root.pa.name)
    (hseed : seedState sm σ root up = some s0)
    (hreach : Reach sm s0 s) :
    ∀ n, n ∈ s.unsel ↔
      (getDependenciesOn s.sel n ≠ [] ∧ n ∉ s.sel.projects.map ProjectAtom.name) :=
  (reach_inv (seed_inv sm σ root up hv0 hnr hseed) hreach).1.2.2.2.1

/-- C3: in every state reachable between driver steps from a freshly seeded
solver, the version-queue stack pairs up in order with the non-root committed
atoms of the selection; in particular the stack's length is the number of
committed atoms minus one. -/
theorem versions_projects_length_invariant (sm : SourceManager) (σ : SolverState)
    (root : ProjectInfo) (up : List ProjectName) (s0 s : SolverState)
    (hv0 : σ.versions = [])
    (hnr : ∀ pa d, d ∈ declaredD sm root pa → d.name ≠ root.pa.name)
    (hseed : seedState sm σ root up = some s0)
    (hreach : Reach sm s0 s) :
    s.versions.length + 1 = s.sel.projects.length ∧
    s.versions.map VersionQueue.ref = s.sel.projects.tail.map ProjectAtom.name := by
  have hinv := reach_inv (seed_inv sm σ root up hv0 hnr hseed) hreach
  refine ⟨?_, hinv.2⟩
  have hlen := congrArg List.length hinv.2
  simp only [List.length_map, List.length_tail] at hlen
  have hpne : s.sel.projects ≠ [] := by
    intro hh
    have h1 := hinv.1.1
    rw [hh] at h1
    exact Option.noConfusion h1
  have := List.length_pos.mpr hpne
  omega

def rootW3 : ProjectInfo := ⟨⟨"R", "v1"⟩, [], [], none⟩

def smW3 : SourceManager :=
  ⟨fun _ => .ok false, fun _ => .ok false, fun _ => .ok [],
   fun pa => if pa.name = "R" then .ok ⟨pa, [], [], none⟩ else .error "unknown"⟩

def w3s0 : SolverState := (seedState smW3 NewSolver rootW3 []).getD NewSolver

theorem smW3_hnr : ∀ pa d, d ∈ declaredD smW3 rootW3 pa → d.name ≠ rootW3.pa.name := by
  intro pa d hd
  by_cases hp : pa.name = "R" <;>
    simp [declaredD, getDependenciesOf, smW3, rootW3, hp] at hd

theorem versions_projects_length_invariant_witness :
    w3s0.versions.length + 1 = w3s0.sel.projects.length ∧
    w3s0.versions.map VersionQueue.ref = w3s0.sel.projects.tail.map ProjectAtom.name :=
  versions_projects_length_invariant smW3 NewSolver rootW3 [] w3s0 w3s0 rfl smW3_hnr
    rfl Relation.ReflTransGen.refl

theorem frontier_membership_amended_witness :
    "X" ∈ w3s0.unsel ↔
      (getDependenciesOn w3s0.sel "X" ≠ [] ∧
       "X" ∉ w3s0.sel.projects.map ProjectAtom.name) :=
  frontier_membership_amended smW3 NewSolver rootW3 [] w3s0 w3s0 rfl smW3_hnr
    rfl Relation.ReflTransGen.refl "X"
